import Mathlib

/-!
Verification of the js-lru repository: a doubly linked list based LRU cache
with optional entry lifetime (lazy expiry).

The embedding models the JavaScript objects of `src/lru-es6.js` (class
`LRUCache`) and `src/lru.js` (prototype `LRUMap`).  JavaScript object
references are modelled as numeric ids into a store (an association list
id -> entry); `undefined` pointers are `Option.none`.  The JS `Map` used for
the key index is modelled as an insertion ordered association list with the
exact `Map` semantics (set replaces in place, delete removes, size counts
distinct keys).  Keys, values and timestamps are natural numbers; the clock
(`new Date().getTime()`) is passed explicitly as a `now` argument.
-/

/-- An entry of `lru-es6.js` (`class Entry`): key, value, creation timestamp
and the two chain links.  `previous` points towards the newest end (the JS
`PREVIOUS` symbol), `next` towards the oldest end (the JS `NEXT` symbol). -/
structure Entry where
  key : Nat
  value : Nat
  created_at : Nat
  previous : Option Nat
  next : Option Nat
deriving DecidableEq

/-- Heap of allocated entries, addressed by id (a JS object reference). -/
abbrev Store (α : Type) := List (Nat × α)

/-- Dereference an object id. -/
def lookupStore {α : Type} : Store α → Nat → Option α
  | [], _ => none
  | (j, e) :: rest, i => if j = i then some e else lookupStore rest i

/-- Mutate the object behind an id in place. -/
def updateStore {α : Type} : Store α → Nat → (α → α) → Store α
  | [], _, _ => []
  | (j, e) :: rest, i, f =>
    if j = i then (j, f e) :: updateStore rest i f
    else (j, e) :: updateStore rest i f

/-- The key index: JS `Map` from key to entry id, insertion ordered. -/
abbrev Keymap := List (Nat × Nat)

/-- `Map.prototype.get`. -/
def mapGet : Keymap → Nat → Option Nat
  | [], _ => none
  | (k', i) :: rest, k => if k' = k then some i else mapGet rest k

/-- `Map.prototype.has`. -/
def mapHas (m : Keymap) (k : Nat) : Bool :=
  (mapGet m k).isSome

/-- `Map.prototype.set`: replaces the value in place when the key is present
(keeping its position), otherwise appends (JS `Map` keeps insertion order). -/
def mapSet : Keymap → Nat → Nat → Keymap
  | [], k, i => [(k, i)]
  | (k', j) :: rest, k, i =>
    if k' = k then (k, i) :: rest else (k', j) :: mapSet rest k i

/-- `Map.prototype.delete`. -/
def mapDelete (m : Keymap) (k : Nat) : Keymap :=
  m.filter (fun p => p.1 ≠ k)

/-- `Map.prototype.size` (the keymap never holds a duplicate key). -/
def mapSize (m : Keymap) : Nat := m.length

/-- Keys currently in the index, in insertion order. -/
def mapKeys (m : Keymap) : List Nat := m.map Prod.fst

/-- The cache object of `lru-es6.js` (`class LRUCache`).  `tail` is the
oldest (least recently used) end of the chain and `head` the newest end.
`createdAtProp` models the `CREATED_AT` property that the `renewAge` branch
of `_markEntryAsUsed` writes on the cache object itself (`this[CREATED_AT]`);
no code ever reads it. -/
structure LRUCache where
  lifetime : Nat
  size : Nat
  limit : Nat
  tail : Option Nat
  head : Option Nat
  keymap : Keymap
  store : Store Entry
  nextId : Nat
  createdAtProp : Option Nat
deriving DecidableEq

/-- `new LRUCache(lifetime, limit)` with no initial entries. -/
def mkCache (lifetime limit : Nat) : LRUCache :=
  ⟨lifetime, 0, limit, none, none, [], [], 0, none⟩

/-- `new Entry(key, value)`: allocates a fresh object in the store and
returns its reference. -/
def allocEntry (c : LRUCache) (k v now : Nat) : Nat × LRUCache :=
  (c.nextId,
   { c with store := c.store ++ [(c.nextId, ⟨k, v, now, none, none⟩)],
            nextId := c.nextId + 1 })

/-- `LRUCache.prototype._markEntryAsUsed(entry, renewAge)`.  The fall-through
`=> c` branches correspond to pointer dereferences that cannot fail on a
well-formed cache (a non-head entry always has a newer neighbour, a keymap id
always denotes an allocated entry); the well-formedness development below
shows they are never taken from reachable states. -/
def markEntryAsUsed (c : LRUCache) (i : Nat) (renewAge : Bool) (now : Nat) :
    LRUCache :=
  if c.head = some i then c
  else
    match lookupStore c.store i with
    | none => c
    | some e =>
      match e.previous with
      | none => c
      | some p =>
        -- entry[PREVIOUS][NEXT] = entry[NEXT]
        let c1 := { c with
          store := updateStore c.store p (fun pe => { pe with next := e.next }) }
        -- if (entry !== this.tail) entry[NEXT][PREVIOUS] = entry[PREVIOUS]
        let c2 :=
          if c1.tail = some i then c1
          else
            match e.next with
            | none => c1
            | some nx => { c1 with
                store := updateStore c1.store nx
                  (fun ne => { ne with previous := e.previous }) }
        -- if (entry === this.tail) this.tail = entry[PREVIOUS]
        let c3 := if c2.tail = some i then { c2 with tail := e.previous } else c2
        -- entry[PREVIOUS] = undefined
        let c4 := { c3 with
          store := updateStore c3.store i (fun ee => { ee with previous := none }) }
        -- this.head[PREVIOUS] = entry
        let c5 :=
          match c4.head with
          | none => c4
          | some h => { c4 with
              store := updateStore c4.store h
                (fun he => { he with previous := some i }) }
        -- entry[NEXT] = this.head; this.head = entry
        let c6 := { c5 with
          store := updateStore c5.store i (fun ee => { ee with next := c5.head }) }
        let c7 := { c6 with head := some i }
        -- if (renewAge) this[CREATED_AT] = new Date().getTime()
        -- (written on the cache object, not on the entry)
        if renewAge then { c7 with createdAtProp := some now } else c7

/-- `LRUCache.prototype._purgeRemovedEntry(entry)`. -/
def purgeRemovedEntry (c : LRUCache) (i : Nat) : LRUCache :=
  let c1 := { c with
    store := updateStore c.store i
      (fun e => { e with previous := none, next := none }) }
  match lookupStore c1.store i with
  | none => c1
  | some e => { c1 with keymap := mapDelete c1.keymap e.key }

/-- `LRUCache.prototype.removeLRUItem()`. -/
def removeLRUItem (c : LRUCache) : Option (Nat × Nat) × LRUCache :=
  if c.size = 0 then (none, c)
  else
    match c.tail with
    | none => (none, c)
    | some t =>
      match lookupStore c.store t with
      | none => (none, c)
      | some e =>
        let c1 :=
          if c.size = 1 then { c with tail := none, head := none }
          else
            match e.previous with
            | none => c
            | some p =>
              let ca := { c with tail := some p }
              { ca with
                store := updateStore ca.store p (fun pe => { pe with next := none }) }
        let c2 := { c1 with size := c1.size - 1 }
        (some (e.key, e.value), purgeRemovedEntry c2 t)

/-- The new-key path of `LRUCache.prototype.set` before the limit check:
allocate the entry, add it to the keymap, link it at the head end and bump
the size. -/
def setInsert (c : LRUCache) (k v now : Nat) : LRUCache :=
  let (i, ca) := allocEntry c k v now
  let cb := { ca with keymap := mapSet ca.keymap k i }
  let cc :=
    if 0 < cb.size then
      match cb.head with
      | none => cb
      | some h =>
        let cx := { cb with
          store := updateStore cb.store h (fun he => { he with previous := some i }) }
        { cx with
          store := updateStore cx.store i (fun ee => { ee with next := some h }) }
    else { cb with tail := some i }
  let cd := { cc with head := some i }
  { cd with size := cd.size + 1 }

/-- `LRUCache.prototype.set(key, value)`. -/
def LRUCache.set (c : LRUCache) (k v now : Nat) : LRUCache :=
  if mapHas c.keymap k then
    match mapGet c.keymap k with
    | none => c
    | some i =>
      match lookupStore c.store i with
      | none => c
      | some _ =>
        let c1 := { c with
          store := updateStore c.store i (fun e => { e with value := v }) }
        markEntryAsUsed c1 i true now
  else
    let c' := setInsert c k v now
    if c'.limit < c'.size then (removeLRUItem c').2 else c'

/-- `LRUCache.prototype.delete(key)`: returns the removed value (or `none`)
together with the cache after the call. -/
def LRUCache.delete (c : LRUCache) (k : Nat) : Option Nat × LRUCache :=
  match mapGet c.keymap k with
  | none => (none, c)
  | some i =>
    match lookupStore c.store i with
    | none => (none, c)
    | some e =>
      let c1 := { c with keymap := mapDelete c.keymap e.key }
      let c2 :=
        match e.previous, e.next with
        | some p, some nx =>
          let ca := { c1 with
            store := updateStore c1.store nx (fun ne => { ne with previous := some p }) }
          { ca with
            store := updateStore ca.store p (fun pe => { pe with next := some nx }) }
        | some p, none =>
          let ca := { c1 with
            store := updateStore c1.store p (fun pe => { pe with next := none }) }
          { ca with tail := some p }
        | none, some nx =>
          let ca := { c1 with
            store := updateStore c1.store nx (fun ne => { ne with previous := none }) }
          { ca with head := some nx }
        | none, none => { c1 with tail := none, head := none }
      (some e.value, { c2 with size := c2.size - 1 })

/-- Age test of `LRUCache.prototype.has`: `(now - created)/60000 > lifetime`
over real numbers, equivalently `now - created > lifetime * 60000`; with a
monotone clock (`created ≤ now`) the truncated subtraction agrees with JS. -/
def ageExpired (lifetime created now : Nat) : Bool :=
  decide (lifetime * 60000 < now - created)

/-- `LRUCache.prototype.has(key)`: returns the boolean together with the
cache after the call (an expired entry is deleted as a side effect). -/
def LRUCache.has (c : LRUCache) (k now : Nat) : Bool × LRUCache :=
  if mapHas c.keymap k then
    if c.lifetime = 0 then (true, c)
    else
      match mapGet c.keymap k with
      | none => (false, c)
      | some i =>
        match lookupStore c.store i with
        | none => (true, c)
        | some e =>
          if ageExpired c.lifetime e.created_at now then
            (false, (c.delete k).2)
          else (true, c)
  else (false, c)

/-- `LRUCache.prototype.get(key)`: `none` models the thrown `notFound`
error; the returned cache is the state observed after the call (the expiry
deletion performed by `has` persists even when the error is thrown). -/
def LRUCache.get (c : LRUCache) (k now : Nat) : Option Nat × LRUCache :=
  let hc := c.has k now
  if hc.1 = false then (none, hc.2)
  else
    match mapGet hc.2.keymap k with
    | none => (none, hc.2)
    | some i =>
      let c2 := markEntryAsUsed hc.2 i false now
      match lookupStore c2.store i with
      | none => (none, c2)
      | some e => (some e.value, c2)

/-- `LRUCache.prototype.clear()`. -/
def LRUCache.clear (c : LRUCache) : LRUCache :=
  { c with tail := none, head := none, size := 0, keymap := [] }

/-- `LRUCache.prototype.find(key)`: pure peek. -/
def LRUCache.find (c : LRUCache) (k : Nat) : Option Nat :=
  match mapGet c.keymap k with
  | none => none
  | some i => (lookupStore c.store i).map Entry.value

/-- One iteration of the `LRUCache.prototype.assign` loop before the
overflow check: build the entry, add it to the map and link it to the
previously added entry (`lastAddedEntry`), or make it the tail when it is
the first. -/
def assignStep (c : LRUCache) (k v now : Nat) (lastAdded : Option Nat) :
    LRUCache :=
  let (i, ca) := allocEntry c k v now
  let cb := { ca with keymap := mapSet ca.keymap k i }
  match lastAdded with
  | none => { cb with tail := some i }
  | some la =>
    let cx := { cb with
      store := updateStore cb.store la (fun le => { le with previous := some i }) }
    { cx with
      store := updateStore cx.store i (fun ee => { ee with next := some la }) }

/-- The loop of `LRUCache.prototype.assign`.  `lastAdded` is the JS
`lastAddedEntry` variable, `lim` the countdown copy of `this.limit`
(`none` models `Number.MAX_VALUE`, which never reaches zero).  The check
`limit-- === 0` runs after the entry was added, so on overflow the error
carries the cache with the extra entries already in the keymap and chain. -/
def assignLoop (c : LRUCache) (pairs : List (Nat × Nat)) (now : Nat)
    (lastAdded : Option Nat) (lim : Option Nat) :
    Except LRUCache (LRUCache × Option Nat) :=
  match pairs with
  | [] => .ok (c, lastAdded)
  | (k, v) :: rest =>
    let cc := assignStep c k v now lastAdded
    match lim with
    | some 0 => .error cc
    | some (n + 1) => assignLoop cc rest now (some c.nextId) (some n)
    | none => assignLoop cc rest now (some c.nextId) none

/-- `LRUCache.prototype.assign(entries)`.  The error case carries the cache
state left behind by the thrown overflow error. -/
def LRUCache.assign (c : LRUCache) (pairs : List (Nat × Nat)) (now : Nat) :
    Except LRUCache LRUCache :=
  let lim : Option Nat := if c.limit = 0 then none else some c.limit
  let c0 := { c with keymap := [] }
  match assignLoop c0 pairs now none lim with
  | .error cerr => .error cerr
  | .ok (c1, lastAdded) =>
    let c2 := { c1 with head := lastAdded }
    .ok { c2 with size := mapSize c2.keymap }

/-- Chain traversal of `LRUCache.prototype.toJSON`: walk from `tail` along
the `PREVIOUS` links.  The fuel bounds the walk; a well-formed chain has at
most as many nodes as the store holds, so the fuel is never exhausted
(proved below). -/
def toJSONAux (s : Store Entry) : Nat → Option Nat → List (Nat × Nat)
  | 0, _ => []
  | _, none => []
  | fuel + 1, some i =>
    match lookupStore s i with
    | none => []
    | some e => (e.key, e.value) :: toJSONAux s fuel e.previous

/-- `LRUCache.prototype.toJSON()` without the date option: the (key, value)
records from the oldest to the newest entry. -/
def LRUCache.toJSON (c : LRUCache) : List (Nat × Nat) :=
  toJSONAux c.store c.store.length c.tail

/-- Ids of the entries reachable by the oldest-to-newest chain traversal
(the walk shared by `toJSON`, `toString`, `forEach` and the iterators). -/
def chainIdsAux (s : Store Entry) : Nat → Option Nat → List Nat
  | 0, _ => []
  | _, none => []
  | fuel + 1, some i =>
    match lookupStore s i with
    | none => []
    | some e => i :: chainIdsAux s fuel e.previous

/-- Entry ids reachable from the oldest end of the chain. -/
def LRUCache.chainIds (c : LRUCache) : List Nat :=
  chainIdsAux c.store c.store.length c.tail

/-- Keys of the entries reachable from the oldest end of the chain. -/
def LRUCache.chainKeys (c : LRUCache) : List Nat :=
  c.chainIds.filterMap (fun i => (lookupStore c.store i).map Entry.key)

/-!
Model of `src/lru.js` (`LRUMap`): same design without lifetimes, and with
`newest` as the newest-end field.  Its `removeLRUItem` single-entry branch
assigns `this.head` — a property no other line of `lru.js` uses — instead of
`this.newest`; the stray property is modelled by the `head` field below.
-/

/-- An entry of `lru.js` (`function Entry`): no creation timestamp. -/
structure MEntry where
  key : Nat
  value : Nat
  previous : Option Nat
  next : Option Nat
deriving DecidableEq

/-- The cache object of `lru.js` (`LRUMap`).  `newest` is the newest-end
reference used by every operation; `head` is the property written only by
the single-entry branch of `removeLRUItem` (initially absent). -/
structure LRUMap where
  size : Nat
  limit : Nat
  tail : Option Nat
  newest : Option Nat
  head : Option Nat
  keymap : Keymap
  store : Store MEntry
  nextId : Nat
deriving DecidableEq

/-- `new LRUMap(limit)` with no initial entries. -/
def mkMap (limit : Nat) : LRUMap :=
  ⟨0, limit, none, none, none, [], [], 0⟩

/-- `LRUMap.prototype._markEntryAsUsed(entry)`. -/
def LRUMap.markEntryAsUsed (c : LRUMap) (i : Nat) : LRUMap :=
  if c.newest = some i then c
  else
    match lookupStore c.store i with
    | none => c
    | some e =>
      -- if (entry[PREVIOUS]) { if (entry === this.tail) ...; entry[PREVIOUS][NEXT] = entry[NEXT] }
      let c1 :=
        match e.previous with
        | none => c
        | some p =>
          let ca := if c.tail = some i then { c with tail := some p } else c
          { ca with
            store := updateStore ca.store p (fun pe => { pe with next := e.next }) }
      -- if (entry[NEXT]) entry[NEXT][PREVIOUS] = entry[PREVIOUS]
      let c2 :=
        match e.next with
        | none => c1
        | some nx => { c1 with
            store := updateStore c1.store nx (fun ne => { ne with previous := e.previous }) }
      -- entry[PREVIOUS] = undefined; entry[NEXT] = this.newest
      let c3 := { c2 with
        store := updateStore c2.store i
          (fun ee => { ee with previous := none, next := c2.newest }) }
      -- if (this.newest) this.newest[PREVIOUS] = entry
      let c4 :=
        match c3.newest with
        | none => c3
        | some h => { c3 with
            store := updateStore c3.store h (fun he => { he with previous := some i }) }
      { c4 with newest := some i }

/-- `LRUMap.prototype.removeLRUItem()` with `purgeRemovedEntry` inlined at
the tail call.  In the single-entry case the source clears `this.tail` and
`this.head` — but the class's newest-end field is `this.newest`, which is
left pointing at the removed entry. -/
def LRUMap.removeLRUItem (c : LRUMap) : Option (Nat × Nat) × LRUMap :=
  if c.size = 0 then (none, c)
  else
    match c.tail with
    | none => (none, c)
    | some t =>
      match lookupStore c.store t with
      | none => (none, c)
      | some e =>
        let c1 :=
          if c.size = 1 then { c with tail := none, head := none }
          else
            match e.previous with
            | none => c
            | some p =>
              let ca := { c with tail := some p }
              { ca with
                store := updateStore ca.store p (fun pe => { pe with next := none }) }
        let c2 := { c1 with size := c1.size - 1 }
        let c3 := { c2 with
          store := updateStore c2.store t
            (fun ee => { ee with previous := none, next := none }) }
        (some (e.key, e.value), { c3 with keymap := mapDelete c3.keymap e.key })

/-- `LRUMap.prototype.set(key, value)`: note the new-key path branches on
the truthiness of `this.newest`, not on `this.size`. -/
def LRUMap.set (c : LRUMap) (k v : Nat) : LRUMap :=
  match mapGet c.keymap k with
  | some i =>
    match lookupStore c.store i with
    | none => c
    | some _ =>
      let c1 := { c with
        store := updateStore c.store i (fun e => { e with value := v }) }
      c1.markEntryAsUsed i
  | none =>
    let i := c.nextId
    let ca := { c with
      store := c.store ++ [(i, (⟨k, v, none, none⟩ : MEntry))],
      nextId := c.nextId + 1 }
    let cb := { ca with keymap := mapSet ca.keymap k i }
    let cc :=
      match cb.newest with
      | some h =>
        let cx := { cb with
          store := updateStore cb.store h (fun he => { he with previous := some i }) }
        { cx with
          store := updateStore cx.store i (fun ee => { ee with next := some h }) }
      | none => { cb with tail := some i }
    let cd := { cc with newest := some i }
    let ce := { cd with size := cd.size + 1 }
    if ce.limit < ce.size then (ce.removeLRUItem).2 else ce

/-!  The operations of `lru-es6.js` as a single step type, used to quantify
over "any later operation" and over reachable states. -/

/-- One public mutating operation of the es6 `LRUCache`. -/
inductive Op where
  | opSet (k v now : Nat)
  | opGet (k now : Nat)
  | opHas (k now : Nat)
  | opDelete (k : Nat)
  | opRemoveLRU
  | opClear
  | opAssign (pairs : List (Nat × Nat)) (now : Nat)
deriving DecidableEq

/-- The cache state observed after an operation (for `assign`, the state
left behind by a thrown overflow error when it does not return normally). -/
def applyOp (o : Op) (c : LRUCache) : LRUCache :=
  match o with
  | .opSet k v now => c.set k v now
  | .opGet k now => (c.get k now).2
  | .opHas k now => (c.has k now).2
  | .opDelete k => (c.delete k).2
  | .opRemoveLRU => (removeLRUItem c).2
  | .opClear => c.clear
  | .opAssign pairs now =>
    match c.assign pairs now with
    | .ok c' => c'
    | .error c' => c'

/-!  Well-formedness of a cache state: the chain is a doubly linked acyclic
sequence and the keymap indexes exactly its entries.  `l` lists the entry
ids from the oldest to the newest end. -/

/-- The id of the first element of `l`, or `n` when `l` is empty (the
neighbour on the newer side of a chain segment). -/
def headOr : List Nat → Option Nat → Option Nat
  | [], n => n
  | j :: _, _ => some j

/-- The id of the last element of `l`, or `o` when `l` is empty (the
neighbour on the older side of a chain segment). -/
def lastOr (l : List Nat) (o : Option Nat) : Option Nat :=
  match l.getLast? with
  | none => o
  | some x => some x

/-- `seg s older l newer` checks that the ids `l` form a correctly doubly
linked chain segment: each entry's `next` points to the preceding (older)
id — `older` for the first — and each entry's `previous` points to the
following (newer) id — `newer` for the last. -/
def seg (s : Store Entry) : Option Nat → List Nat → Option Nat → Bool
  | _, [], _ => true
  | older, i :: rest, newer =>
    match lookupStore s i with
    | none => false
    | some e =>
      decide (e.next = older) && decide (e.previous = headOr rest newer) &&
      seg s (some i) rest newer

/-- Well-formedness of a cache with chain ids `l` (oldest to newest): `l` is
duplicate free, `tail`/`head` are its two ends, the links are consistent,
`size` is its length, and the keymap is exactly the key-to-id index of the
chain entries.  All allocated ids lie below `nextId`. -/
structure WFl (c : LRUCache) (l : List Nat) : Prop where
  idsNodup : l.Nodup
  tailEq : c.tail = l.head?
  headEq : c.head = l.getLast?
  chain : seg c.store none l none = true
  sizeEq : c.size = l.length
  kmKeysNodup : (mapKeys c.keymap).Nodup
  kmSound : ∀ k i, mapGet c.keymap k = some i →
    i ∈ l ∧ ∃ e, lookupStore c.store i = some e ∧ e.key = k
  kmComplete : ∀ i ∈ l, ∃ e, lookupStore c.store i = some e ∧
    mapGet c.keymap e.key = some i
  storeBound : ∀ p ∈ c.store, p.1 < c.nextId

/-- A cache state is well formed when some id list witnesses `WFl`. -/
def WF (c : LRUCache) : Prop := ∃ l, WFl c l

/-- Executable well-formedness check, used to certify concrete states. -/
def wfB (c : LRUCache) (l : List Nat) : Bool :=
  decide l.Nodup && decide (c.tail = l.head?) && decide (c.head = l.getLast?) &&
  seg c.store none l none && decide (c.size = l.length) &&
  decide (mapKeys c.keymap).Nodup &&
  c.keymap.all (fun p => decide (p.2 ∈ l) &&
    (match lookupStore c.store p.2 with
     | none => false
     | some e => decide (e.key = p.1))) &&
  l.all (fun i =>
    match lookupStore c.store i with
    | none => false
    | some e => decide (mapGet c.keymap e.key = some i)) &&
  c.store.all (fun p => decide (p.1 < c.nextId))

/-- Cache states reachable by successful operations: constructed by
`new LRUCache(lifetime, limit)` and closed under the public operations,
where each `assign` input is a nonempty duplicate-free sequence that the
capacity admits (so the call returns normally). -/
inductive ReachableWF : LRUCache → Prop where
  | init (lifetime limit : Nat) : ReachableWF (mkCache lifetime limit)
  | stepSet (c : LRUCache) (k v now : Nat) :
      ReachableWF c → ReachableWF (c.set k v now)
  | stepGet (c : LRUCache) (k now : Nat) :
      ReachableWF c → ReachableWF (c.get k now).2
  | stepHas (c : LRUCache) (k now : Nat) :
      ReachableWF c → ReachableWF (c.has k now).2
  | stepDelete (c : LRUCache) (k : Nat) :
      ReachableWF c → ReachableWF (c.delete k).2
  | stepRemoveLRU (c : LRUCache) :
      ReachableWF c → ReachableWF (removeLRUItem c).2
  | stepClear (c : LRUCache) :
      ReachableWF c → ReachableWF c.clear
  | stepAssign (c c' : LRUCache) (pairs : List (Nat × Nat)) (now : Nat) :
      ReachableWF c → pairs ≠ [] → (pairs.map Prod.fst).Nodup →
      (c.limit = 0 ∨ pairs.length ≤ c.limit) →
      c.assign pairs now = .ok c' → ReachableWF c'

/-!  Concrete scenario states used by the claim theorems below. -/

/-- Capacity 3, lifetime disabled, keys 1 (A), 2 (B), 3 (C) set in order. -/
def capacity3Run : LRUCache :=
  (((mkCache 0 3).set 1 10 0).set 2 20 0).set 3 30 0

/-- Lifetime 1 minute: key 0 set at time 0 and set again (touched) at
40000 ms. -/
def lifetimeRun : LRUCache :=
  ((mkCache 1 10).set 0 0 0).set 0 1 40000

/-- Capacity 2 cache holding one entry, about to receive an overlong
`assign`. -/
def overflowBase : LRUCache := (mkCache 0 2).set 9 99 0

/-- State after `assign` of a duplicate-key sequence on a fresh cache. -/
def dupAssignState : LRUCache :=
  applyOp (Op.opAssign [(0, 1), (0, 2)] 0) (mkCache 0 0)

/-- One-entry `lru.js` map. -/
def singletonMap : LRUMap := (mkMap 10).set 1 100

/-- One-entry `lru-es6.js` cache. -/
def singletonCache : LRUCache := (mkCache 0 10).set 1 100 0

/-- Every entry present in `s` is still present in `s'` with an unchanged
creation timestamp (the store view used to state the created-at frame
property). -/
def CreatedPreserved (s s' : Store Entry) : Prop :=
  ∀ i e, lookupStore s i = some e →
    ∃ e', lookupStore s' i = some e' ∧ e'.created_at = e.created_at

/-- Every entry present in `s` is still present in `s'` with unchanged key
and value (the store view used for the value frame of the chain surgery
in `_markEntryAsUsed`). -/
def KVPreserved (s s' : Store Entry) : Prop :=
  ∀ i e, lookupStore s i = some e →
    ∃ e', lookupStore s' i = some e' ∧ e'.key = e.key ∧ e'.value = e.value

/-- The store holds at `i` an entry carrying the key and value of `kv` (the
relation between a chain id and the (key, value) record it represents in
`toJSON` and `assign`). -/
def entryMatches (s : Store Entry) (kv : Nat × Nat) (i : Nat) : Prop :=
  ∃ e, lookupStore s i = some e ∧ e.key = kv.1 ∧ e.value = kv.2

-- ===================== end of definitions =====================

/-!  Basic facts about the store and the keymap model. -/

theorem lookupStore_append {α : Type} (s t : Store α) (i : Nat) :
    lookupStore (s ++ t) i = (lookupStore s i).or (lookupStore t i) := by
  induction s with
  | nil => simp [lookupStore]
  | cons p rest ih =>
    obtain ⟨j, e⟩ := p
    by_cases h : j = i <;> simp [lookupStore, h, ih]

theorem lookupStore_eq_none {α : Type} (s : Store α) (n : Nat)
    (h : ∀ p ∈ s, p.1 ≠ n) : lookupStore s n = none := by
  induction s with
  | nil => rfl
  | cons p rest ih =>
    obtain ⟨j, e⟩ := p
    have hj : j ≠ n := h (j, e) (by simp)
    simp only [lookupStore, if_neg hj]
    exact ih fun q hq => h q (by simp [hq])

theorem lookupStore_append_fresh {α : Type} (s : Store α) (n : Nat) (e : α)
    (h : ∀ p ∈ s, p.1 ≠ n) : lookupStore (s ++ [(n, e)]) n = some e := by
  rw [lookupStore_append, lookupStore_eq_none s n h]
  simp [lookupStore]

theorem lookupStore_append_ne {α : Type} (s : Store α) (n : Nat) (e : α)
    (j : Nat) (h : j ≠ n) :
    lookupStore (s ++ [(n, e)]) j = lookupStore s j := by
  rw [lookupStore_append]
  have hne : lookupStore [(n, e)] j = none := by
    have : n ≠ j := fun hh => h hh.symm
    simp [lookupStore, this]
  rw [hne]
  cases lookupStore s j <;> rfl

theorem lookupStore_update_self {α : Type} (s : Store α) (i : Nat)
    (f : α → α) :
    lookupStore (updateStore s i f) i = (lookupStore s i).map f := by
  induction s with
  | nil => rfl
  | cons p rest ih =>
    obtain ⟨j, e⟩ := p
    by_cases h : j = i <;> simp [lookupStore, updateStore, h, ih]

theorem lookupStore_update_ne {α : Type} (s : Store α) (i : Nat) (f : α → α)
    (j : Nat) (h : j ≠ i) :
    lookupStore (updateStore s i f) j = lookupStore s j := by
  induction s with
  | nil => rfl
  | cons p rest ih =>
    obtain ⟨a, e⟩ := p
    by_cases ha : a = i
    · subst ha
      have hne : a ≠ j := fun hh => h hh.symm
      simp [lookupStore, updateStore, hne, ih]
    · by_cases hb : a = j
      · subst hb
        simp [lookupStore, updateStore, ha, ih]
      · simp [lookupStore, updateStore, ha, hb, ih]

theorem updateStore_ids {α : Type} (s : Store α) (i : Nat) (f : α → α) :
    (updateStore s i f).map Prod.fst = s.map Prod.fst := by
  induction s with
  | nil => rfl
  | cons p rest ih =>
    obtain ⟨a, e⟩ := p
    by_cases h : a = i <;> simp [updateStore, h, ih]

theorem storeBound_update {α : Type} (s : Store α) (i n : Nat) (f : α → α)
    (h : ∀ p ∈ s, p.1 < n) : ∀ p ∈ updateStore s i f, p.1 < n := by
  intro p hp
  have hmem : p.1 ∈ (updateStore s i f).map Prod.fst :=
    List.mem_map_of_mem _ hp
  rw [updateStore_ids] at hmem
  obtain ⟨q, hq, hqe⟩ := List.mem_map.1 hmem
  exact hqe ▸ h q hq

theorem length_updateStore {α : Type} (s : Store α) (i : Nat) (f : α → α) :
    (updateStore s i f).length = s.length := by
  induction s with
  | nil => rfl
  | cons p rest ih =>
    obtain ⟨a, e⟩ := p
    by_cases h : a = i <;> simp [updateStore, h, ih]

/-!  Facts about the keymap model. -/

theorem mapGet_eq_lookupStore (m : Keymap) (k : Nat) :
    mapGet m k = lookupStore m k := by
  induction m with
  | nil => rfl
  | cons p rest ih =>
    obtain ⟨a, i⟩ := p
    by_cases h : a = k <;> simp [mapGet, lookupStore, h, ih]

theorem mapGet_eq_none_iff (m : Keymap) (k : Nat) :
    mapGet m k = none ↔ k ∉ mapKeys m := by
  induction m with
  | nil => simp [mapGet, mapKeys]
  | cons p rest ih =>
    obtain ⟨a, i⟩ := p
    by_cases h : a = k
    · subst h
      simp [mapGet, mapKeys]
    · have h' : k ≠ a := fun hh => h hh.symm
      simp [mapGet, mapKeys, h, h', ih]

theorem mapGet_mem (m : Keymap) (k i : Nat) (h : mapGet m k = some i) :
    (k, i) ∈ m := by
  induction m with
  | nil => simp [mapGet] at h
  | cons p rest ih =>
    obtain ⟨a, j⟩ := p
    by_cases ha : a = k
    · subst ha
      simp [mapGet] at h
      simp [h]
    · simp [mapGet, ha] at h
      simp [ih h]

theorem mapGet_set_self (m : Keymap) (k i : Nat) :
    mapGet (mapSet m k i) k = some i := by
  induction m with
  | nil => simp [mapSet, mapGet]
  | cons p rest ih =>
    obtain ⟨a, j⟩ := p
    by_cases h : a = k <;> simp [mapSet, mapGet, h, ih]

theorem mapGet_set_ne (m : Keymap) (k i k' : Nat) (h : k' ≠ k) :
    mapGet (mapSet m k i) k' = mapGet m k' := by
  have h' : k ≠ k' := fun hh => h hh.symm
  induction m with
  | nil => simp [mapSet, mapGet, h']
  | cons p rest ih =>
    obtain ⟨a, j⟩ := p
    by_cases ha : a = k
    · subst ha
      simp [mapSet, mapGet, h']
    · by_cases hb : a = k'
      · subst hb
        simp [mapSet, mapGet, h, ha]
      · simp [mapSet, mapGet, ha, hb, ih]

theorem mapGet_delete_self (m : Keymap) (k : Nat) :
    mapGet (mapDelete m k) k = none := by
  induction m with
  | nil => rfl
  | cons p rest ih =>
    obtain ⟨a, j⟩ := p
    by_cases h : a = k
    · subst h
      simpa [mapDelete] using ih
    · simpa [mapDelete, mapGet, h] using ih

theorem mapGet_delete_ne (m : Keymap) (k k' : Nat) (h : k' ≠ k) :
    mapGet (mapDelete m k) k' = mapGet m k' := by
  induction m with
  | nil => rfl
  | cons p rest ih =>
    obtain ⟨a, j⟩ := p
    by_cases ha : a = k
    · subst ha
      have h' : a ≠ k' := fun hh => h hh.symm
      simpa [mapDelete, mapGet, h'] using ih
    · by_cases hb : a = k'
      · subst hb
        simp [mapDelete, mapGet, ha, List.filter_cons]
      · simpa [mapDelete, mapGet, ha, hb, List.filter_cons] using ih

theorem mapKeys_set (m : Keymap) (k i : Nat) :
    mapKeys (mapSet m k i)
      = if mapHas m k then mapKeys m else mapKeys m ++ [k] := by
  induction m with
  | nil => simp [mapSet, mapKeys, mapHas, mapGet]
  | cons p rest ih =>
    obtain ⟨a, j⟩ := p
    by_cases h : a = k
    · subst h
      simp [mapSet, mapKeys, mapHas, mapGet]
    · have hset : mapSet ((a, j) :: rest) k i = (a, j) :: mapSet rest k i := by
        simp [mapSet, h]
      have hhas : mapHas ((a, j) :: rest) k = mapHas rest k := by
        simp [mapHas, mapGet, h]
      rw [hset, hhas]
      simp only [mapKeys, List.map_cons] at *
      rw [ih]
      by_cases hh : mapHas rest k <;> simp [hh]

theorem mapKeys_nodup_set (m : Keymap) (k i : Nat)
    (h : (mapKeys m).Nodup) : (mapKeys (mapSet m k i)).Nodup := by
  rw [mapKeys_set]
  by_cases hh : mapHas m k
  · simpa [hh] using h
  · have hk : k ∉ mapKeys m := by
      have : mapGet m k = none := by
        revert hh
        unfold mapHas
        cases mapGet m k <;> simp
      exact (mapGet_eq_none_iff m k).1 this
    simp [hh, List.nodup_append, h, hk]

theorem mapDelete_sublist (m : Keymap) (k : Nat) :
    (mapDelete m k).Sublist m :=
  List.filter_sublist m

theorem mapKeys_nodup_delete (m : Keymap) (k : Nat)
    (h : (mapKeys m).Nodup) : (mapKeys (mapDelete m k)).Nodup :=
  ((mapDelete_sublist m k).map Prod.fst).nodup h

theorem length_mapSet (m : Keymap) (k i : Nat) :
    (mapSet m k i).length
      = if mapHas m k then m.length else m.length + 1 := by
  induction m with
  | nil => simp [mapSet, mapHas, mapGet]
  | cons p rest ih =>
    obtain ⟨a, j⟩ := p
    by_cases h : a = k
    · subst h
      simp [mapSet, mapHas, mapGet]
    · have hset : mapSet ((a, j) :: rest) k i = (a, j) :: mapSet rest k i := by
        simp [mapSet, h]
      have hhas : mapHas ((a, j) :: rest) k = mapHas rest k := by
        simp [mapHas, mapGet, h]
      rw [hset, hhas]
      simp only [List.length_cons]
      rw [ih]
      by_cases hh : mapHas rest k <;> simp [hh]

theorem mapHas_eq_true_iff (m : Keymap) (k : Nat) :
    mapHas m k = true ↔ ∃ i, mapGet m k = some i := by
  unfold mapHas
  cases mapGet m k <;> simp

theorem mapHas_eq_false_iff (m : Keymap) (k : Nat) :
    mapHas m k = false ↔ mapGet m k = none := by
  unfold mapHas
  cases mapGet m k <;> simp

/-!  Concrete claim theorems. -/

/-- C5: with capacity 3 and sequential sets of the distinct keys 1, 2, 3, 4
(A, B, C, D), each insertion beyond capacity evicts the current oldest
entry: afterwards the cache holds exactly keys 2, 3, 4 with their values in
oldest-to-newest order, key 1 is gone, and `removeLRUItem` called just
before the fourth insertion returns key 1 with its value. -/
theorem claimC5_capacity3_eviction :
    (capacity3Run.set 4 40 0).toJSON = [(2, 20), (3, 30), (4, 40)] ∧
    mapKeys (capacity3Run.set 4 40 0).keymap = [2, 3, 4] ∧
    (capacity3Run.set 4 40 0).size = 3 ∧
    mapHas (capacity3Run.set 4 40 0).keymap 1 = false ∧
    (removeLRUItem capacity3Run).1 = some (1, 10) := by
  decide

/-- C10: `assign` is not atomic on error: on a capacity 2 cache holding key
9, assigning three pairs raises overflow after the old index was cleared
and three (capacity + 1) new entries were inserted into the index, while
`size` and the newest-end reference still hold their pre-call values. -/
theorem claimC10_assign_not_atomic :
    overflowBase.limit = 2 ∧ overflowBase.size = 1 ∧
    mapHas overflowBase.keymap 9 = true ∧
    (overflowBase.assign [(1, 1), (2, 2), (3, 3)] 5).isOk = false ∧
    mapSize (applyOp (Op.opAssign [(1, 1), (2, 2), (3, 3)] 5)
      overflowBase).keymap = 3 ∧
    mapHas (applyOp (Op.opAssign [(1, 1), (2, 2), (3, 3)] 5)
      overflowBase).keymap 1 = true ∧
    mapHas (applyOp (Op.opAssign [(1, 1), (2, 2), (3, 3)] 5)
      overflowBase).keymap 2 = true ∧
    mapHas (applyOp (Op.opAssign [(1, 1), (2, 2), (3, 3)] 5)
      overflowBase).keymap 3 = true ∧
    mapHas (applyOp (Op.opAssign [(1, 1), (2, 2), (3, 3)] 5)
      overflowBase).keymap 9 = false ∧
    (applyOp (Op.opAssign [(1, 1), (2, 2), (3, 3)] 5) overflowBase).size
      = overflowBase.size ∧
    (applyOp (Op.opAssign [(1, 1), (2, 2), (3, 3)] 5) overflowBase).head
      = overflowBase.head := by
  decide

/-- C7 (code bug in `lru.js`): after `removeLRUItem` on a map holding one
entry, `tail` and the unused `head` property are cleared but `newest` still
references the removed entry, so the following `set` links the new entry to
the purged one and never re-establishes `tail`.  The `lru-es6.js` variant
clears both true end references and the following `set` behaves as an
insertion into an empty cache, as the claim states. -/
theorem claimC7_lrujs_stale_newest :
    (singletonMap.removeLRUItem).1 = some (1, 100) ∧
    (singletonMap.removeLRUItem).2.tail = none ∧
    (singletonMap.removeLRUItem).2.head = none ∧
    (singletonMap.removeLRUItem).2.newest = some 0 ∧
    (singletonMap.removeLRUItem).2.size = 0 ∧
    ((singletonMap.removeLRUItem).2.set 2 200).tail = none ∧
    ((singletonMap.removeLRUItem).2.set 2 200).size = 1 ∧
    (removeLRUItem singletonCache).1 = some (1, 100) ∧
    (removeLRUItem singletonCache).2.tail = none ∧
    (removeLRUItem singletonCache).2.head = none ∧
    (removeLRUItem singletonCache).2.size = 0 ∧
    (removeLRUItem singletonCache).2.keymap = [] ∧
    ((removeLRUItem singletonCache).2.set 2 200 0).tail = some 1 ∧
    ((removeLRUItem singletonCache).2.set 2 200 0).head = some 1 ∧
    ((removeLRUItem singletonCache).2.set 2 200 0).size = 1 ∧
    mapGet ((removeLRUItem singletonCache).2.set 2 200 0).keymap 2
      = some 1 := by
  decide

/-- C1 counterexample: lifetime 1 minute; key 0 is created at time 0 and
touched by `set` at 40000 ms.  At 90000 ms only 50 seconds — less than the
lifetime — have elapsed since that last set, so by the claim `has` must
return true and remove nothing; the code instead measures the age from the
entry's creation (90 s > 1 min), returns false and deletes the entry. -/
theorem claimC1_cex_touch_not_renewed :
    lifetimeRun.lifetime = 1 ∧ 90000 - 40000 ≤ 1 * 60000 ∧
    (lifetimeRun.has 0 90000).1 = false ∧
    mapHas ((lifetimeRun.has 0 90000).2).keymap 0 = false := by
  decide

/-- C2 counterexample: a cache constructed with capacity 0 and no bulk load
is not unbounded — after one `set` of a single distinct key the claim
requires size 1 with the key retrievable, but the insertion immediately
triggers eviction of the just-inserted entry: size is 0 and the key gone. -/
theorem claimC2_cex_capacity_zero_evicts :
    ((mkCache 0 0).set 5 7 0).limit = 0 ∧
    ((mkCache 0 0).set 5 7 0).size = 0 ∧
    (((mkCache 0 0).set 5 7 0).has 5 0).1 = false ∧
    ((mkCache 0 0).set 5 7 0).find 5 = none ∧
    mapKeys ((mkCache 0 0).set 5 7 0).keymap = [] := by
  decide

/-- C6 counterexample: `assign` of the duplicate-key sequence
`[(0,1), (0,2)]` on a fresh unbounded cache builds a chain node per input
pair while the index deduplicates, so two entries are chain reachable from
the oldest end while `size` is 1 — the claimed count equality fails. -/
theorem claimC6_cex_duplicate_assign :
    dupAssignState.size = 1 ∧
    dupAssignState.chainIds.length = 2 ∧
    dupAssignState.chainKeys = [0, 0] ∧
    mapKeys dupAssignState.keymap = [0] := by
  decide

/-!  Claim C2: behaviour of a capacity 0 cache under `set`. -/

theorem set_keeps_degenerate (c : LRUCache) (k v now : Nat)
    (hsz : c.size = 0) (hkm : c.keymap = []) (hlim : c.limit = 0)
    (hb : ∀ p ∈ c.store, p.1 < c.nextId) :
    (c.set k v now).size = 0 ∧ (c.set k v now).keymap = [] ∧
    (c.set k v now).tail = none ∧ (c.set k v now).head = none ∧
    (c.set k v now).limit = 0 ∧
    (∀ p ∈ (c.set k v now).store, p.1 < (c.set k v now).nextId) := by
  obtain ⟨lt, sz, lim, tl, hd, km, st, nid, cap⟩ := c
  simp only at hsz hkm hlim hb
  subst hsz hkm hlim
  have hfresh : ∀ p ∈ st, p.1 ≠ nid := fun p hp => Nat.ne_of_lt (hb p hp)
  have hlook : lookupStore (st ++ [(nid, (⟨k, v, now, none, none⟩ : Entry))]) nid
      = some ⟨k, v, now, none, none⟩ := lookupStore_append_fresh _ _ _ hfresh
  have hb2 : ∀ p ∈ st ++ [(nid, (⟨k, v, now, none, none⟩ : Entry))],
      p.1 < nid + 1 := by
    intro p hp
    rcases List.mem_append.1 hp with h1 | h2
    · exact Nat.lt_succ_of_lt (hb p h1)
    · simp at h2
      simp [h2]
  simp [LRUCache.set, setInsert, allocEntry, mapHas, mapGet, mapSet,
    removeLRUItem, purgeRemovedEntry, mapDelete, hlook,
    lookupStore_update_self]
  exact fun a b hab => storeBound_update _ _ _ _ hb2 (a, b) hab

/-- C2 amended: a cache constructed with capacity 0 and no initial bulk
load is not unbounded: since `size > limit` holds after every insertion,
each `set` of a new key synchronously evicts the oldest entry — the one
just inserted, starting from the empty cache — so after any sequence of
`set` calls the cache is empty (size 0, empty index, both chain ends
undefined) and no key is retrievable by `has` or `find`.  Capacity 0 is
treated as unbounded only inside `assign`. -/
theorem claimC2_capacity_zero_never_retains (lt : Nat)
    (ops : List (Nat × Nat × Nat)) :
    ((ops.foldl (fun c kv => c.set kv.1 kv.2.1 kv.2.2) (mkCache lt 0)).size = 0 ∧
     (ops.foldl (fun c kv => c.set kv.1 kv.2.1 kv.2.2) (mkCache lt 0)).keymap = [] ∧
     (ops.foldl (fun c kv => c.set kv.1 kv.2.1 kv.2.2) (mkCache lt 0)).tail = none ∧
     (ops.foldl (fun c kv => c.set kv.1 kv.2.1 kv.2.2) (mkCache lt 0)).head = none) ∧
    ∀ k now,
      ((ops.foldl (fun c kv => c.set kv.1 kv.2.1 kv.2.2) (mkCache lt 0)).has k now).1
          = false ∧
      (ops.foldl (fun c kv => c.set kv.1 kv.2.1 kv.2.2) (mkCache lt 0)).find k
          = none := by
  have main : ∀ (l : List (Nat × Nat × Nat)) (c : LRUCache),
      c.size = 0 → c.keymap = [] → c.tail = none → c.head = none →
      c.limit = 0 → (∀ p ∈ c.store, p.1 < c.nextId) →
      ((l.foldl (fun c kv => c.set kv.1 kv.2.1 kv.2.2) c).size = 0 ∧
       (l.foldl (fun c kv => c.set kv.1 kv.2.1 kv.2.2) c).keymap = [] ∧
       (l.foldl (fun c kv => c.set kv.1 kv.2.1 kv.2.2) c).tail = none ∧
       (l.foldl (fun c kv => c.set kv.1 kv.2.1 kv.2.2) c).head = none) := by
    intro l
    induction l with
    | nil => intro c h1 h2 h3 h4 h5 h6; exact ⟨h1, h2, h3, h4⟩
    | cons kv rest ih =>
      intro c h1 h2 h3 h4 h5 h6
      obtain ⟨g1, g2, g3, g4, g5, g6⟩ :=
        set_keeps_degenerate c kv.1 kv.2.1 kv.2.2 h1 h2 h5 h6
      exact ih _ g1 g2 g3 g4 g5 g6
  have hres := main ops (mkCache lt 0) rfl rfl rfl rfl rfl (by simp [mkCache])
  refine ⟨hres, ?_⟩
  intro k now
  obtain ⟨h1, h2, h3, h4⟩ := hres
  constructor
  · simp [LRUCache.has, h2, mapHas, mapGet]
  · simp [LRUCache.find, h2, mapGet]

/-!  The creation timestamp of a stored entry is never changed by any store
manipulation the operations perform (claims C1 and C9). -/

theorem createdPreserved_refl (s : Store Entry) : CreatedPreserved s s :=
  fun i e h => ⟨e, h, rfl⟩

theorem createdPreserved_update_of {s t : Store Entry} {i : Nat}
    {f : Entry → Entry} (hf : ∀ e, (f e).created_at = e.created_at)
    (h : CreatedPreserved s t) : CreatedPreserved s (updateStore t i f) := by
  intro j e hj
  obtain ⟨e', he', hc⟩ := h j e hj
  by_cases hji : j = i
  · subst hji
    refine ⟨f e', ?_, ?_⟩
    · rw [lookupStore_update_self, he']
      rfl
    · rw [hf e', hc]
  · exact ⟨e', by rw [lookupStore_update_ne _ _ _ _ hji]; exact he', hc⟩

theorem createdPreserved_append_of {s t : Store Entry} (u : Store Entry)
    (h : CreatedPreserved s t) : CreatedPreserved s (t ++ u) := by
  intro j e hj
  obtain ⟨e', he', hc⟩ := h j e hj
  refine ⟨e', ?_, hc⟩
  rw [lookupStore_append, he']
  rfl

theorem markUsed_createdPreserved (c : LRUCache) (i : Nat) (ra : Bool)
    (now : Nat) :
    CreatedPreserved c.store (markEntryAsUsed c i ra now).store := by
  by_cases h1 : c.head = some i
  · unfold markEntryAsUsed
    rw [if_pos h1]
    exact createdPreserved_refl _
  · cases hl : lookupStore c.store i with
    | none =>
      unfold markEntryAsUsed
      simp only [if_neg h1, hl]
      exact createdPreserved_refl _
    | some e =>
      cases hp : e.previous with
      | none =>
        unfold markEntryAsUsed
        simp only [if_neg h1, hl, hp]
        exact createdPreserved_refl _
      | some p =>
        unfold markEntryAsUsed
        simp only [if_neg h1, hl, hp]
        by_cases h2 : c.tail = some i <;>
          cases hn : e.next <;>
          cases hhd : c.head <;>
          cases ra <;>
          simp [h2, hn, hhd] <;>
          repeat
            first
            | exact createdPreserved_refl _
            | refine createdPreserved_update_of (fun _ => rfl) ?_

theorem createdPreserved_trans {s t u : Store Entry}
    (h1 : CreatedPreserved s t) (h2 : CreatedPreserved t u) :
    CreatedPreserved s u := by
  intro i e h
  obtain ⟨e', he', hc⟩ := h1 i e h
  obtain ⟨e'', he'', hc'⟩ := h2 i e' he'
  exact ⟨e'', he'', hc'.trans hc⟩

theorem purge_store (c : LRUCache) (i : Nat) :
    (purgeRemovedEntry c i).store
      = updateStore c.store i
          (fun e => { e with previous := none, next := none }) := by
  unfold purgeRemovedEntry
  dsimp only
  split <;> rfl

theorem removeLRU_createdPreserved (c : LRUCache) :
    CreatedPreserved c.store (removeLRUItem c).2.store := by
  unfold removeLRUItem
  dsimp only
  repeat' split
  all_goals simp only [purge_store]
  all_goals try dsimp only
  all_goals repeat
    first
    | exact createdPreserved_refl _
    | refine createdPreserved_update_of (fun _ => rfl) ?_

theorem setInsert_createdPreserved (c : LRUCache) (k v now : Nat) :
    CreatedPreserved c.store (setInsert c k v now).store := by
  unfold setInsert allocEntry
  dsimp only
  repeat' split
  all_goals try dsimp only
  all_goals repeat
    first
    | exact createdPreserved_append_of _ (createdPreserved_refl _)
    | refine createdPreserved_update_of (fun _ => rfl) ?_

theorem set_createdPreserved (c : LRUCache) (k v now : Nat) :
    CreatedPreserved c.store (c.set k v now).store := by
  unfold LRUCache.set
  dsimp only
  split
  · repeat' split
    all_goals
      first
      | exact createdPreserved_refl _
      | (refine createdPreserved_trans ?_ (markUsed_createdPreserved _ _ _ _)
         exact createdPreserved_update_of (fun _ => rfl)
           (createdPreserved_refl _))
  · split
    · exact createdPreserved_trans (setInsert_createdPreserved c k v now)
        (removeLRU_createdPreserved _)
    · exact setInsert_createdPreserved c k v now

theorem delete_createdPreserved (c : LRUCache) (k : Nat) :
    CreatedPreserved c.store (c.delete k).2.store := by
  unfold LRUCache.delete
  dsimp only
  repeat' split
  all_goals try dsimp only
  all_goals repeat
    first
    | exact createdPreserved_refl _
    | refine createdPreserved_update_of (fun _ => rfl) ?_

theorem has_createdPreserved (c : LRUCache) (k now : Nat) :
    CreatedPreserved c.store (c.has k now).2.store := by
  unfold LRUCache.has
  repeat' split
  all_goals
    first
    | exact createdPreserved_refl _
    | exact delete_createdPreserved c k

theorem get_createdPreserved (c : LRUCache) (k now : Nat) :
    CreatedPreserved c.store (c.get k now).2.store := by
  unfold LRUCache.get
  dsimp only
  repeat' split
  all_goals
    first
    | exact has_createdPreserved c k now
    | exact createdPreserved_trans (has_createdPreserved c k now)
        (markUsed_createdPreserved _ _ _ _)

theorem assignStep_createdPreserved (c : LRUCache) (k v now : Nat)
    (la : Option Nat) :
    CreatedPreserved c.store (assignStep c k v now la).store := by
  unfold assignStep allocEntry
  dsimp only
  repeat' split
  all_goals try dsimp only
  all_goals repeat
    first
    | exact createdPreserved_append_of _ (createdPreserved_refl _)
    | refine createdPreserved_update_of (fun _ => rfl) ?_

theorem assignLoop_createdPreserved (pairs : List (Nat × Nat)) :
    ∀ (c : LRUCache) (now : Nat) (la lim : Option Nat) (s0 : Store Entry),
      CreatedPreserved s0 c.store →
      CreatedPreserved s0
        (match assignLoop c pairs now la lim with
         | .ok (c', _) => c'.store
         | .error c' => c'.store) := by
  induction pairs with
  | nil =>
    intro c now la lim s0 h
    simpa [assignLoop] using h
  | cons kv rest ih =>
    intro c now la lim s0 h
    obtain ⟨k, v⟩ := kv
    have hstep : CreatedPreserved s0 (assignStep c k v now la).store :=
      createdPreserved_trans h (assignStep_createdPreserved c k v now la)
    simp only [assignLoop]
    cases lim with
    | none => exact ih _ now _ none s0 hstep
    | some n =>
      cases n with
      | zero => exact hstep
      | succ m => exact ih _ now _ (some m) s0 hstep

theorem assign_createdPreserved (c : LRUCache) (pairs : List (Nat × Nat))
    (now : Nat) :
    CreatedPreserved c.store
      (match c.assign pairs now with
       | .ok c' => c'.store
       | .error c' => c'.store) := by
  unfold LRUCache.assign
  have h := assignLoop_createdPreserved pairs { c with keymap := [] } now
    none (if c.limit = 0 then none else some c.limit) c.store
    (createdPreserved_refl _)
  revert h
  cases hres : assignLoop { c with keymap := [] } pairs now none
      (if c.limit = 0 then none else some c.limit) with
  | error cerr => intro h; simpa [hres] using h
  | ok pr =>
    obtain ⟨c1, la⟩ := pr
    intro h
    simpa [hres] using h

theorem setInsert_new_entry (c : LRUCache) (k v now : Nat)
    (hb : ∀ p ∈ c.store, p.1 < c.nextId) :
    (lookupStore (setInsert c k v now).store c.nextId).map Entry.created_at
      = some now := by
  have hfresh : ∀ p ∈ c.store, p.1 ≠ c.nextId :=
    fun p hp => Nat.ne_of_lt (hb p hp)
  have hbase : lookupStore
      (c.store ++ [(c.nextId, (⟨k, v, now, none, none⟩ : Entry))]) c.nextId
      = some ⟨k, v, now, none, none⟩ :=
    lookupStore_append_fresh _ _ _ hfresh
  have hpres : CreatedPreserved
      (c.store ++ [(c.nextId, (⟨k, v, now, none, none⟩ : Entry))])
      (setInsert c k v now).store := by
    unfold setInsert allocEntry
    dsimp only
    repeat' split
    all_goals try dsimp only
    all_goals repeat
      first
      | exact createdPreserved_refl _
      | refine createdPreserved_update_of (fun _ => rfl) ?_
  obtain ⟨e', he', hc⟩ := hpres c.nextId _ hbase
  rw [he']
  simp [hc]

theorem set_existing_renews_cache_prop (c : LRUCache) (k v now i p : Nat)
    (e : Entry) (hk : mapGet c.keymap k = some i)
    (he : lookupStore c.store i = some e) (hh : ¬c.head = some i)
    (hp : e.previous = some p) :
    (c.set k v now).createdAtProp = some now := by
  have hhas : mapHas c.keymap k = true := by simp [mapHas, hk]
  have hl1 : lookupStore
      (updateStore c.store i (fun e => { e with value := v })) i
      = some { e with value := v } := by
    rw [lookupStore_update_self, he]
    rfl
  simp only [LRUCache.set, hhas, hk, he, if_true]
  unfold markEntryAsUsed
  dsimp only
  rw [if_neg hh, hl1]
  dsimp only
  rw [hp]
  rfl

theorem delete_keymap (c : LRUCache) (k i : Nat) (e : Entry)
    (hk : mapGet c.keymap k = some i) (he : lookupStore c.store i = some e) :
    ((c.delete k).2).keymap = mapDelete c.keymap e.key := by
  unfold LRUCache.delete
  simp only [hk, he]
  cases hp : e.previous <;> cases hn : e.next <;> rfl

theorem assign_ok_createdPreserved (c c' : LRUCache)
    (pairs : List (Nat × Nat)) (now : Nat)
    (h : c.assign pairs now = .ok c') :
    CreatedPreserved c.store c'.store := by
  have hh := assign_createdPreserved c pairs now
  rw [h] at hh
  simpa using hh

theorem assign_error_createdPreserved (c c' : LRUCache)
    (pairs : List (Nat × Nat)) (now : Nat)
    (h : c.assign pairs now = .error c') :
    CreatedPreserved c.store c'.store := by
  have hh := assign_createdPreserved c pairs now
  rw [h] at hh
  simpa using hh

/-- C9: an entry's `created_at` is fixed when the entry object is built
(by `set` on a new key, or by `assign`) and is modified by no operation:
every entry present in the store keeps its timestamp across every public
operation; a fresh insertion stamps the entry with the current clock; and
the `renewAge` branch of the recency-update routine writes the new
timestamp on the cache object (`createdAtProp`) instead of on the entry. -/
theorem claimC9_created_at_frame :
    (∀ (o : Op) (c : LRUCache),
       CreatedPreserved c.store (applyOp o c).store) ∧
    (∀ (c : LRUCache) (k v now : Nat), (∀ p ∈ c.store, p.1 < c.nextId) →
       (lookupStore (setInsert c k v now).store c.nextId).map Entry.created_at
         = some now) ∧
    (∀ (c : LRUCache) (k v now i p : Nat) (e : Entry),
       mapGet c.keymap k = some i → lookupStore c.store i = some e →
       ¬c.head = some i → e.previous = some p →
       (c.set k v now).createdAtProp = some now) := by
  refine ⟨?_, setInsert_new_entry, set_existing_renews_cache_prop⟩
  intro o c
  cases o with
  | opSet k v now => exact set_createdPreserved c k v now
  | opGet k now => exact get_createdPreserved c k now
  | opHas k now => exact has_createdPreserved c k now
  | opDelete k => exact delete_createdPreserved c k
  | opRemoveLRU => exact removeLRU_createdPreserved c
  | opClear => exact createdPreserved_refl _
  | opAssign pairs now =>
    unfold applyOp
    dsimp only
    split
    · rename_i heq
      exact assign_ok_createdPreserved c _ pairs now heq
    · rename_i heq
      exact assign_error_createdPreserved c _ pairs now heq

/-- C9 witness: in the singleton cache the stored entry (id 0, created at
time 0) keeps `created_at = 0` across a `set` touch at time 7777. -/
theorem claimC9_witness :
    (lookupStore (applyOp (Op.opSet 1 555 7777) singletonCache).store 0).map
      Entry.created_at = some 0 := by
  obtain ⟨e', he', hc⟩ := claimC9_created_at_frame.1 (Op.opSet 1 555 7777)
    singletonCache 0 ⟨1, 100, 0, none, none⟩ (by decide)
  rw [he']
  simp [hc]

/-- C1 amended: for a key `k` present in a cache with positive lifetime,
`has k` returns false and removes `k` from the index exactly when more than
`lifetime` minutes have elapsed since the entry's `created_at`; otherwise it
returns true and changes nothing.  `created_at` is set only when the entry
object is constructed: a later `set` touch of `k` does not restart the age
clock (the `renewAge` write lands on the cache object, not the entry). -/
theorem claimC1_expiry_from_creation (c : LRUCache) (k now i : Nat)
    (e : Entry) (hk : mapGet c.keymap k = some i)
    (he : lookupStore c.store i = some e) (hek : e.key = k)
    (hlt : 0 < c.lifetime) :
    (if c.lifetime * 60000 < now - e.created_at then
        (c.has k now).1 = false ∧ mapGet ((c.has k now).2).keymap k = none
      else c.has k now = (true, c)) ∧
    (∀ v now', (lookupStore (c.set k v now').store i).map Entry.created_at
        = some e.created_at) := by
  have hhas : mapHas c.keymap k = true := by simp [mapHas, hk]
  have hlt0 : ¬c.lifetime = 0 := by omega
  constructor
  · have hasEq : c.has k now
        = (if ageExpired c.lifetime e.created_at now then
            (false, (c.delete k).2) else (true, c)) := by
      unfold LRUCache.has
      rw [if_pos hhas, if_neg hlt0]
      simp only [hk, he]
    split
    · rename_i hexp
      have hage : ageExpired c.lifetime e.created_at now = true := by
        simp [ageExpired, hexp]
      rw [hasEq, if_pos hage]
      refine ⟨rfl, ?_⟩
      show mapGet ((c.delete k).2).keymap k = none
      rw [delete_keymap c k i e hk he, hek]
      exact mapGet_delete_self _ _
    · rename_i hexp
      have hage : ageExpired c.lifetime e.created_at now = false := by
        simp [ageExpired, hexp]
      rw [hasEq, if_neg (by simp [hage])]
  · intro v now'
    have hl1 : lookupStore
        (updateStore c.store i (fun e => { e with value := v })) i
        = some { e with value := v } := by
      rw [lookupStore_update_self, he]
      rfl
    have hsetEq : c.set k v now'
        = markEntryAsUsed
            { c with
              store := updateStore c.store i (fun e => { e with value := v }) }
            i true now' := by
      unfold LRUCache.set
      rw [if_pos hhas]
      simp only [hk, he]
    rw [hsetEq]
    obtain ⟨e', he', hc⟩ := markUsed_createdPreserved
      { c with
        store := updateStore c.store i (fun e => { e with value := v }) }
      i true now' i _ hl1
    rw [he']
    simp [hc]

/-- C1 witness: key 0 of `lifetimeRun` was created at time 0 and touched by
`set` at 40000 ms; at 90000 ms the entry is expired relative to its
creation, so `has` returns false and deletes it, and a further `set` touch
still leaves `created_at` at 0. -/
theorem claimC1_witness :
    (lifetimeRun.has 0 90000).1 = false ∧
    mapGet ((lifetimeRun.has 0 90000).2).keymap 0 = none ∧
    (lookupStore (lifetimeRun.set 0 5 99999).store 0).map Entry.created_at
      = some 0 := by
  have h := claimC1_expiry_from_creation lifetimeRun 0 90000 0
    ⟨0, 1, 0, none, none⟩ (by decide) (by decide) rfl (by decide)
  obtain ⟨h1, h2⟩ := h
  rw [if_pos (by decide)] at h1
  exact ⟨h1.1, h1.2, h2 5 99999⟩

/-!  Chain segments: splitting, joining and framing lemmas. -/

theorem headOr_append (l₁ l₂ : List Nat) (n : Option Nat) :
    headOr (l₁ ++ l₂) n = headOr l₁ (headOr l₂ n) := by
  cases l₁ <;> rfl

theorem lastOr_cons (i : Nat) (rest : List Nat) (o : Option Nat) :
    lastOr (i :: rest) o = lastOr rest (some i) := by
  cases rest with
  | nil => rfl
  | cons b t =>
    cases hg : (b :: t).getLast? with
    | none => simp [List.getLast?_eq_none_iff] at hg
    | some x => simp [lastOr, List.getLast?_cons_cons, hg]

theorem lastOr_append_single (l : List Nat) (i : Nat) :
    ∀ (o : Option Nat), lastOr (l ++ [i]) o = some i := by
  induction l with
  | nil => intro o; rfl
  | cons a t ih =>
    intro o
    rw [List.cons_append, lastOr_cons]
    exact ih _

theorem seg_append (s : Store Entry) (l₁ : List Nat) :
    ∀ (o n : Option Nat) (l₂ : List Nat),
      seg s o (l₁ ++ l₂) n
        = (seg s o l₁ (headOr l₂ n) && seg s (lastOr l₁ o) l₂ n) := by
  induction l₁ with
  | nil => intro o n l₂; simp [seg, lastOr]
  | cons i rest ih =>
    intro o n l₂
    rw [List.cons_append]
    cases hl : lookupStore s i with
    | none => simp [seg, hl]
    | some e =>
      rw [lastOr_cons]
      simp [seg, hl, headOr_append, ih (some i) n l₂, Bool.and_assoc]

theorem seg_store_congr (s s' : Store Entry) :
    ∀ (l : List Nat) (o n : Option Nat),
      (∀ i ∈ l, lookupStore s' i = lookupStore s i) →
      seg s' o l n = seg s o l n := by
  intro l
  induction l with
  | nil => intro o n _; rfl
  | cons i rest ih =>
    intro o n h
    have hi : lookupStore s' i = lookupStore s i := h i (by simp)
    cases hl : lookupStore s i with
    | none => simp [seg, hi, hl]
    | some e =>
      simp only [seg, hi, hl]
      rw [ih (some i) n (fun j hj => h j (by simp [hj]))]

theorem seg_mem_lookup (s : Store Entry) :
    ∀ (l : List Nat) (o n : Option Nat) (i : Nat),
      seg s o l n = true → i ∈ l → ∃ e, lookupStore s i = some e := by
  intro l
  induction l with
  | nil => intro o n i _ hi; simp at hi
  | cons j rest ih =>
    intro o n i hseg hi
    cases hl : lookupStore s j with
    | none => simp [seg, hl] at hseg
    | some e =>
      simp only [seg, hl, Bool.and_eq_true, decide_eq_true_eq] at hseg
      rcases List.mem_cons.1 hi with h1 | h2
      · exact ⟨e, h1 ▸ hl⟩
      · exact ih (some j) n i hseg.2 h2

theorem seg_cons_elim (s : Store Entry) (o n : Option Nat) (i : Nat)
    (rest : List Nat) (h : seg s o (i :: rest) n = true) :
    ∃ e, lookupStore s i = some e ∧ e.next = o ∧
      e.previous = headOr rest n ∧ seg s (some i) rest n = true := by
  cases hl : lookupStore s i with
  | none => simp [seg, hl] at h
  | some e =>
    simp only [seg, hl, Bool.and_eq_true, decide_eq_true_eq] at h
    exact ⟨e, rfl, h.1.1, h.1.2, h.2⟩

theorem seg_cons_intro (s : Store Entry) (o n : Option Nat) (i : Nat)
    (rest : List Nat) (e : Entry) (hl : lookupStore s i = some e)
    (h1 : e.next = o) (h2 : e.previous = headOr rest n)
    (h3 : seg s (some i) rest n = true) :
    seg s o (i :: rest) n = true := by
  simp [seg, hl, h1, h2, h3]

theorem lookup_mem_ids {α : Type} (s : Store α) (i : Nat) (e : α)
    (h : lookupStore s i = some e) : i ∈ s.map Prod.fst := by
  induction s with
  | nil => simp [lookupStore] at h
  | cons p rest ih =>
    obtain ⟨a, x⟩ := p
    by_cases ha : a = i
    · simp [ha]
    · simp [lookupStore, ha] at h
      simp [ih h]

theorem WFl.id_lt {c : LRUCache} {l : List Nat} (w : WFl c l) {i : Nat}
    (hi : i ∈ l) : i < c.nextId := by
  obtain ⟨e, he⟩ := seg_mem_lookup c.store l none none i w.chain hi
  have hm := lookup_mem_ids c.store i e he
  obtain ⟨p, hp, hpi⟩ := List.mem_map.1 hm
  exact hpi ▸ w.storeBound p hp

theorem setInsert_WFl (c : LRUCache) (k v now : Nat) (l : List Nat)
    (w : WFl c l) (hnew : mapGet c.keymap k = none) :
    WFl (setInsert c k v now) (l ++ [c.nextId]) := by
  have hidlt : ∀ j ∈ l, j < c.nextId := fun j hj => w.id_lt hj
  obtain ⟨wnodup, wtail, whead, wchain, wsize, wknodup, wsound, wcomplete,
    wbound⟩ := w
  obtain ⟨lt, sz, lim, tl, hd, km, st, nid, cap⟩ := c
  simp only at wtail whead wchain wsize wsound wcomplete wbound wknodup hnew hidlt ⊢
  have hfresh : ∀ p ∈ st, p.1 ≠ nid := fun p hp => Nat.ne_of_lt (wbound p hp)
  have hlook0 : lookupStore
      (st ++ [(nid, (⟨k, v, now, none, none⟩ : Entry))]) nid
      = some ⟨k, v, now, none, none⟩ :=
    lookupStore_append_fresh _ _ _ hfresh
  have hs1 : ∀ j, j ≠ nid →
      lookupStore (st ++ [(nid, (⟨k, v, now, none, none⟩ : Entry))]) j
        = lookupStore st j :=
    fun j hj => lookupStore_append_ne st nid _ j hj
  have hbound1 : ∀ p ∈ st ++ [(nid, (⟨k, v, now, none, none⟩ : Entry))],
      p.1 < nid + 1 := by
    intro p hp
    rcases List.mem_append.1 hp with h1 | h2
    · exact Nat.lt_succ_of_lt (wbound p h1)
    · simp at h2
      simp [h2]
  rcases List.eq_nil_or_concat l with rfl | ⟨l₀, h, rfl⟩
  · -- empty cache: the new entry becomes the single chain element
    simp only [List.length_nil] at wsize
    have htl : tl = none := by simpa using wtail
    have hhd : hd = none := by simpa using whead
    subst wsize htl hhd
    have hstate : setInsert ⟨lt, 0, lim, none, none, km, st, nid, cap⟩ k v now
        = ⟨lt, 1, lim, some nid, some nid, mapSet km k nid,
           st ++ [(nid, ⟨k, v, now, none, none⟩)], nid + 1, cap⟩ := rfl
    rw [hstate]
    refine ⟨by simp, rfl, rfl, ?_, rfl, mapKeys_nodup_set _ _ _ wknodup,
      ?_, ?_, hbound1⟩
    · exact seg_cons_intro _ none none nid [] _ hlook0 rfl rfl rfl
    · intro k' j hkj
      by_cases hk' : k' = k
      · subst hk'
        rw [mapGet_set_self] at hkj
        cases hkj
        exact ⟨by simp, ⟨k', v, now, none, none⟩, hlook0, rfl⟩
      · rw [mapGet_set_ne _ _ _ _ hk'] at hkj
        exact absurd (wsound k' j hkj).1 (by simp)
    · intro j hj
      simp only [List.nil_append, List.mem_singleton] at hj
      subst hj
      exact ⟨⟨k, v, now, none, none⟩, hlook0, by simpa using mapGet_set_self km k j⟩
  · -- non-empty cache: the new entry is linked in front of the old head h
    simp only [List.concat_eq_append] at wnodup wtail whead wchain wsize wsound wcomplete hidlt ⊢
    have hhd : hd = some h := by rw [whead]; simp
    subst hhd
    have hszlen : sz = l₀.length + 1 := by simpa using wsize
    subst hszlen
    have hhl : h ∈ l₀ ++ [h] := by simp
    have hhne : h ≠ nid := Nat.ne_of_lt (hidlt h hhl)
    have hnotmem : nid ∉ l₀ ++ [h] :=
      fun hmem => Nat.lt_irrefl nid (hidlt nid hmem)
    have hhnotl₀ : h ∉ l₀ := by
      have := wnodup
      simp [List.nodup_append] at this
      exact this.2
    obtain ⟨eh, heh⟩ := seg_mem_lookup st (l₀ ++ [h]) none none h wchain hhl
    have hsplit : seg st none l₀ (some h) = true ∧
        seg st (lastOr l₀ none) [h] none = true := by
      have hsp : (seg st none l₀ (headOr [h] none) &&
          seg st (lastOr l₀ none) [h] none) = true := by
        rw [← seg_append]
        exact wchain
      simp only [Bool.and_eq_true] at hsp
      exact ⟨by simpa [headOr] using hsp.1, hsp.2⟩
    obtain ⟨ehnext, ehprev⟩ :
        eh.next = lastOr l₀ none ∧ eh.previous = none := by
      obtain ⟨e', he', hn', hp', _⟩ := seg_cons_elim st _ none h [] hsplit.2
      rw [heh] at he'
      cases he'
      exact ⟨hn', hp'⟩
    have hstate : setInsert
        ⟨lt, l₀.length + 1, lim, tl, some h, km, st, nid, cap⟩ k v now
        = ⟨lt, l₀.length + 1 + 1, lim, tl, some nid, mapSet km k nid,
           updateStore (updateStore
               (st ++ [(nid, ⟨k, v, now, none, none⟩)]) h
               (fun he => { he with previous := some nid })) nid
             (fun ee => { ee with next := some h }),
           nid + 1, cap⟩ := by
      unfold setInsert allocEntry
      dsimp only
      rw [if_pos (Nat.succ_pos l₀.length)]
    rw [hstate]
    -- lookups in the final store
    have hlook_nid : lookupStore (updateStore (updateStore
        (st ++ [(nid, (⟨k, v, now, none, none⟩ : Entry))]) h
        (fun he => { he with previous := some nid })) nid
        (fun ee => { ee with next := some h })) nid
        = some ⟨k, v, now, none, some h⟩ := by
      rw [lookupStore_update_self, lookupStore_update_ne _ _ _ _ hhne.symm,
        hlook0]
      rfl
    have hlook_h : lookupStore (updateStore (updateStore
        (st ++ [(nid, (⟨k, v, now, none, none⟩ : Entry))]) h
        (fun he => { he with previous := some nid })) nid
        (fun ee => { ee with next := some h })) h
        = some { eh with previous := some nid } := by
      rw [lookupStore_update_ne _ _ _ _ hhne, lookupStore_update_self,
        hs1 h hhne, heh]
      rfl
    have hlook_old : ∀ j ∈ l₀, lookupStore (updateStore (updateStore
        (st ++ [(nid, (⟨k, v, now, none, none⟩ : Entry))]) h
        (fun he => { he with previous := some nid })) nid
        (fun ee => { ee with next := some h })) j
        = lookupStore st j := by
      intro j hj
      have hjnid : j ≠ nid := Nat.ne_of_lt (hidlt j (by simp [hj]))
      have hjh : j ≠ h := fun hjh => hhnotl₀ (hjh ▸ hj)
      rw [lookupStore_update_ne _ _ _ _ hjnid,
        lookupStore_update_ne _ _ _ _ hjh, hs1 j hjnid]
    have hlook_any : ∀ j ∈ l₀ ++ [h], ∃ e, lookupStore st j = some e ∧
        lookupStore (updateStore (updateStore
          (st ++ [(nid, (⟨k, v, now, none, none⟩ : Entry))]) h
          (fun he => { he with previous := some nid })) nid
          (fun ee => { ee with next := some h })) j = some e ∨
        (j = h ∧ lookupStore st j = some eh) := by
      intro j hj
      rcases List.mem_append.1 hj with h1 | h2
      · obtain ⟨e, he⟩ := seg_mem_lookup st (l₀ ++ [h]) none none j wchain hj
        exact ⟨e, Or.inl ⟨he, by rw [hlook_old j h1]; exact he⟩⟩
      · simp at h2
        subst h2
        exact ⟨eh, Or.inr ⟨rfl, heh⟩⟩
    refine ⟨?_, ?_, ?_, ?_, by simp, mapKeys_nodup_set _ _ _ wknodup,
      ?_, ?_, ?_⟩
    · refine wnodup.append (List.nodup_singleton nid) ?_
      intro a ha hb
      simp at hb
      subst hb
      exact hnotmem ha
    · rw [wtail]
      cases l₀ <;> rfl
    · simp
    · -- the chain property for l₀ ++ [h] ++ [nid]
      rw [seg_append _ (l₀ ++ [h]) none none [nid]]
      simp only [Bool.and_eq_true]
      refine ⟨?_, ?_⟩
      · rw [seg_append _ l₀ none _ [h]]
        simp only [Bool.and_eq_true]
        refine ⟨?_, ?_⟩
        · rw [seg_store_congr _ _ l₀ none _ (fun j hj => hlook_old j hj)]
          simpa [headOr] using hsplit.1
        · exact seg_cons_intro _ _ _ h [] _ hlook_h
            (by simpa using ehnext) (by simp [headOr]) rfl
      · exact seg_cons_intro _ _ _ nid [] _ hlook_nid
          (by simp [lastOr_append_single]) rfl rfl
    · -- kmSound
      intro k' j hkj
      by_cases hk' : k' = k
      · subst hk'
        rw [mapGet_set_self] at hkj
        cases hkj
        exact ⟨by simp, ⟨k', v, now, none, some h⟩, hlook_nid, rfl⟩
      · rw [mapGet_set_ne _ _ _ _ hk'] at hkj
        obtain ⟨hjl, e, he, hek⟩ := wsound k' j hkj
        refine ⟨List.mem_append_left _ hjl, ?_⟩
        rcases List.mem_append.1 hjl with h1 | h2
        · exact ⟨e, by rw [hlook_old j h1]; exact he, hek⟩
        · simp at h2
          subst h2
          rw [heh] at he
          injection he with hee
          refine ⟨{ eh with previous := some nid }, hlook_h, ?_⟩
          show eh.key = k'
          rw [hee]
          exact hek
    · -- kmComplete
      intro j hj
      rcases List.mem_append.1 hj with h1 | h2
      · obtain ⟨e, he, hkm⟩ := wcomplete j h1
        have hekne : e.key ≠ k := by
          intro hkk
          rw [hkk, hnew] at hkm
          cases hkm
        rcases List.mem_append.1 h1 with ha | hb
        · refine ⟨e, by rw [hlook_old j ha]; exact he, ?_⟩
          rw [mapGet_set_ne _ _ _ _ hekne]
          exact hkm
        · simp at hb
          subst hb
          rw [heh] at he
          injection he with hee
          refine ⟨{ eh with previous := some nid }, hlook_h, ?_⟩
          show mapGet (mapSet km k nid) eh.key = some j
          rw [hee, mapGet_set_ne _ _ _ _ hekne]
          exact hkm
      · simp at h2
        subst h2
        exact ⟨⟨k, v, now, none, some h⟩, hlook_nid,
          by simpa using mapGet_set_self km k j⟩
    · -- storeBound
      exact storeBound_update _ _ _ _ (storeBound_update _ _ _ _ hbound1)

theorem lookup_update_key (s : Store Entry) (i : Nat) (f : Entry → Entry)
    (hf : ∀ e, (f e).key = e.key) (j : Nat) :
    (lookupStore (updateStore s i f) j).map Entry.key
      = (lookupStore s j).map Entry.key := by
  by_cases hj : j = i
  · subst hj
    rw [lookupStore_update_self]
    cases lookupStore s j with
    | none => rfl
    | some e => simp [hf e]
  · rw [lookupStore_update_ne _ _ _ _ hj]

theorem removeLRU_empty (c : LRUCache) (w : WFl c []) :
    removeLRUItem c = (none, c) := by
  unfold removeLRUItem
  rw [if_pos (by rw [w.sizeEq]; rfl)]

theorem removeLRU_WFl (c : LRUCache) (i₀ : Nat) (rest : List Nat)
    (w : WFl c (i₀ :: rest)) :
    ∃ e, lookupStore c.store i₀ = some e ∧
      (removeLRUItem c).1 = some (e.key, e.value) ∧
      WFl (removeLRUItem c).2 rest := by
  have hi₀rest : i₀ ∉ rest := by
    have := w.idsNodup
    simp [List.nodup_cons] at this
    exact this.1
  have hrestnodup : rest.Nodup := by
    have := w.idsNodup
    simp [List.nodup_cons] at this
    exact this.2
  obtain ⟨wnodup, wtail, whead, wchain, wsize, wknodup, wsound, wcomplete,
    wbound⟩ := w
  obtain ⟨lt, sz, lim, tl, hd, km, st, nid, cap⟩ := c
  simp only at wtail whead wchain wsize wsound wcomplete wbound wknodup ⊢
  have htl : tl = some i₀ := by simpa using wtail
  subst htl
  obtain ⟨e₀, he₀, he₀next, he₀prev, hseg₀⟩ :=
    seg_cons_elim st none none i₀ rest wchain
  -- the recorded key of the removed entry is unique to it
  have hkeyuniq : ∀ j ∈ rest, ∀ e, lookupStore st j = some e →
      e.key ≠ e₀.key := by
    intro j hj e he hk
    have h₁ := wcomplete j (by simp [hj])
    obtain ⟨e', he', hkm'⟩ := h₁
    rw [he] at he'
    injection he' with hee
    have h₂ := wcomplete i₀ (by simp)
    obtain ⟨e'', he'', hkm''⟩ := h₂
    rw [he₀] at he''
    injection he'' with hee2
    rw [← hee] at hkm'
    rw [← hee2] at hkm''
    rw [hk] at hkm'
    rw [hkm''] at hkm'
    injection hkm' with hji
    exact hi₀rest (hji ▸ hj)
  cases rest with
  | nil =>
    -- single entry: both end references are cleared
    have hsz1 : sz = 1 := by simpa using wsize
    subst hsz1
    have hres : removeLRUItem ⟨lt, 1, lim, some i₀, hd, km, st, nid, cap⟩
        = (some (e₀.key, e₀.value),
           ⟨lt, 0, lim, none, none, mapDelete km e₀.key,
            updateStore st i₀
              (fun e => { e with previous := none, next := none }),
            nid, cap⟩) := by
      have hpre : removeLRUItem ⟨lt, 1, lim, some i₀, hd, km, st, nid, cap⟩
          = (some (e₀.key, e₀.value), purgeRemovedEntry
             ⟨lt, 0, lim, none, none, km, st, nid, cap⟩ i₀) := by
        unfold removeLRUItem
        dsimp only
        simp only [he₀]
        rfl
      have hpurge : purgeRemovedEntry
          ⟨lt, 0, lim, none, none, km, st, nid, cap⟩ i₀
          = ⟨lt, 0, lim, none, none, mapDelete km e₀.key,
             updateStore st i₀
               (fun e => { e with previous := none, next := none }),
             nid, cap⟩ := by
        unfold purgeRemovedEntry
        dsimp only
        rw [lookupStore_update_self, he₀]
        rfl
      rw [hpre, hpurge]
    rw [hres]
    refine ⟨e₀, he₀, rfl, by simp, rfl, rfl, rfl, rfl,
      mapKeys_nodup_delete _ _ wknodup, ?_, by simp, ?_⟩
    · intro k' j hkj
      by_cases hk' : k' = e₀.key
      · subst hk'
        rw [mapGet_delete_self] at hkj
        cases hkj
      · rw [mapGet_delete_ne _ _ _ hk'] at hkj
        obtain ⟨hjl, e, he, hek⟩ := wsound k' j hkj
        simp at hjl
        subst hjl
        rw [he₀] at he
        injection he with hee
        rw [← hee] at hek
        exact absurd hek.symm hk'
    · exact storeBound_update _ _ _ _ wbound
  | cons j₀ rest' =>
    -- two or more entries: the tail moves to the next oldest entry
    have hj₀ne : j₀ ≠ i₀ := by
      intro hx
      exact hi₀rest (by simp [hx])
    obtain ⟨ej, hej, hejnext, hejprev, hsegj⟩ :=
      seg_cons_elim st (some i₀) none j₀ rest' hseg₀
    have he₀prev' : e₀.previous = some j₀ := by simpa [headOr] using he₀prev
    have hszlen : sz = rest'.length + 1 + 1 := by simpa using wsize
    subst hszlen
    have hlookj₀1 : lookupStore (updateStore st j₀
        (fun pe => { pe with next := none })) i₀ = some e₀ := by
      rw [lookupStore_update_ne _ _ _ _ (fun hx => hj₀ne hx.symm), he₀]
    have hpre : removeLRUItem
        ⟨lt, rest'.length + 1 + 1, lim, some i₀, hd, km, st, nid, cap⟩
        = (some (e₀.key, e₀.value), purgeRemovedEntry
           ⟨lt, rest'.length + 1, lim, some j₀, hd, km,
            updateStore st j₀ (fun pe => { pe with next := none }),
            nid, cap⟩ i₀) := by
      unfold removeLRUItem
      dsimp only
      simp only [he₀, he₀prev']
      rfl
    have hpurge : purgeRemovedEntry
        ⟨lt, rest'.length + 1, lim, some j₀, hd, km,
         updateStore st j₀ (fun pe => { pe with next := none }),
         nid, cap⟩ i₀
        = ⟨lt, rest'.length + 1, lim, some j₀, hd, mapDelete km e₀.key,
           updateStore (updateStore st j₀
             (fun pe => { pe with next := none })) i₀
             (fun e => { e with previous := none, next := none }),
           nid, cap⟩ := by
      unfold purgeRemovedEntry
      dsimp only
      rw [lookupStore_update_self, hlookj₀1]
      rfl
    have hres : removeLRUItem
        ⟨lt, rest'.length + 1 + 1, lim, some i₀, hd, km, st, nid, cap⟩
        = (some (e₀.key, e₀.value),
           ⟨lt, rest'.length + 1, lim, some j₀, hd, mapDelete km e₀.key,
            updateStore (updateStore st j₀
              (fun pe => { pe with next := none })) i₀
              (fun e => { e with previous := none, next := none }),
            nid, cap⟩) := by
      rw [hpre, hpurge]
    rw [hres]
    -- lookups in the final store
    have hkeyview : ∀ j,
        (lookupStore (updateStore (updateStore st j₀
            (fun pe => { pe with next := none })) i₀
            (fun e => { e with previous := none, next := none })) j).map
          Entry.key = (lookupStore st j).map Entry.key := by
      intro j
      rw [lookup_update_key _ i₀
          (fun e => { e with previous := none, next := none })
          (fun _ => rfl) j,
        lookup_update_key st j₀ (fun pe => { pe with next := none })
          (fun _ => rfl) j]
    have hlookj₀ : lookupStore (updateStore (updateStore st j₀
        (fun pe => { pe with next := none })) i₀
        (fun e => { e with previous := none, next := none })) j₀
        = some { ej with next := none } := by
      rw [lookupStore_update_ne _ _ _ _ hj₀ne, lookupStore_update_self, hej]
      rfl
    have hlookrest : ∀ j ∈ rest', lookupStore (updateStore (updateStore st j₀
        (fun pe => { pe with next := none })) i₀
        (fun e => { e with previous := none, next := none })) j
        = lookupStore st j := by
      intro j hj
      have h1 : j ≠ i₀ := fun hx => hi₀rest (by simp [hx ▸ hj])
      have h2 : j ≠ j₀ := by
        intro hx
        have := hrestnodup
        simp [List.nodup_cons] at this
        exact this.1 (hx ▸ hj)
      rw [lookupStore_update_ne _ _ _ _ h1, lookupStore_update_ne _ _ _ _ h2]
    refine ⟨e₀, he₀, rfl, hrestnodup, rfl, ?_, ?_, rfl,
      mapKeys_nodup_delete _ _ wknodup, ?_, ?_, ?_⟩
    · rw [whead]
      rfl
    · -- the chain for j₀ :: rest'
      refine seg_cons_intro _ none none j₀ rest' _ hlookj₀ rfl
        (by simpa using hejprev) ?_
      rw [seg_store_congr _ _ rest' (some j₀) none
        (fun j hj => hlookrest j hj)]
      exact hsegj
    · -- kmSound
      intro k' j hkj
      by_cases hk' : k' = e₀.key
      · subst hk'
        rw [mapGet_delete_self] at hkj
        cases hkj
      · rw [mapGet_delete_ne _ _ _ hk'] at hkj
        obtain ⟨hjl, e, he, hek⟩ := wsound k' j hkj
        have hjrest : j ∈ j₀ :: rest' := by
          rcases List.mem_cons.1 hjl with h1 | h2
          · exfalso
            subst h1
            rw [he₀] at he
            injection he with hee
            rw [← hee] at hek
            exact hk' hek.symm
          · exact h2
        refine ⟨hjrest, ?_⟩
        have hkv := hkeyview j
        rw [he] at hkv
        cases hlk : lookupStore (updateStore (updateStore st j₀
            (fun pe => { pe with next := none })) i₀
            (fun e => { e with previous := none, next := none })) j with
        | none =>
          rw [hlk] at hkv
          simp at hkv
        | some e' =>
          rw [hlk] at hkv
          simp at hkv
          exact ⟨e', rfl, hkv.trans hek⟩
    · -- kmComplete
      intro j hj
      obtain ⟨e, he, hkm⟩ := wcomplete j (by simp [hj])
      have hekne : e.key ≠ e₀.key := hkeyuniq j hj e he
      have hkv := hkeyview j
      rw [he] at hkv
      cases hlk : lookupStore (updateStore (updateStore st j₀
          (fun pe => { pe with next := none })) i₀
          (fun e => { e with previous := none, next := none })) j with
      | none =>
        rw [hlk] at hkv
        simp at hkv
      | some e' =>
        rw [hlk] at hkv
        simp at hkv
        refine ⟨e', rfl, ?_⟩
        rw [hkv, mapGet_delete_ne _ _ _ hekne]
        exact hkm
    · exact storeBound_update _ _ _ _ (storeBound_update _ _ _ _ wbound)

theorem seg_update_last (s s' : Store Entry) (o n n' : Option Nat)
    (m : List Nat) (H : Nat) (eH eH' : Entry)
    (hseg : seg s o (m ++ [H]) n = true)
    (hcongr : ∀ x ∈ m, lookupStore s' x = lookupStore s x)
    (hlook : lookupStore s H = some eH)
    (hlook' : lookupStore s' H = some eH')
    (hnext : eH'.next = eH.next) (hprev : eH'.previous = n') :
    seg s' o (m ++ [H]) n' = true := by
  rw [seg_append] at hseg
  simp only [Bool.and_eq_true] at hseg
  obtain ⟨hm, hH⟩ := hseg
  obtain ⟨e₁, he₁, hn₁, hp₁, _⟩ := seg_cons_elim s _ n H [] hH
  rw [hlook] at he₁
  injection he₁ with hee
  subst hee
  rw [seg_append]
  simp only [Bool.and_eq_true]
  refine ⟨?_, ?_⟩
  · rw [seg_store_congr _ _ m o _ hcongr]
    simpa [headOr] using hm
  · exact seg_cons_intro _ _ _ H [] _ hlook' (hnext.trans hn₁)
      (by simp [headOr, hprev]) rfl

theorem WFl_cap_irrel (lt sz lim : Nat) (tl hd : Option Nat) (km : Keymap)
    (st : Store Entry) (nid : Nat) (cap cap' : Option Nat) (l : List Nat)
    (w : WFl ⟨lt, sz, lim, tl, hd, km, st, nid, cap⟩ l) :
    WFl ⟨lt, sz, lim, tl, hd, km, st, nid, cap'⟩ l :=
  ⟨w.idsNodup, w.tailEq, w.headEq, w.chain, w.sizeEq, w.kmKeysNodup,
   w.kmSound, w.kmComplete, w.storeBound⟩

theorem erase_getLast_append (l : List Nat) (i : Nat) (hnd : l.Nodup)
    (hlast : l.getLast? = some i) : l.erase i ++ [i] = l := by
  rcases List.eq_nil_or_concat l with rfl | ⟨l₀, b, rfl⟩
  · simp at hlast
  · have hb : b = i := by
      rw [List.concat_eq_append] at hlast
      simpa [List.getLast?_append] using hlast
    subst hb
    rw [List.concat_eq_append]
    have hbl : b ∉ l₀ := by
      rw [List.concat_eq_append] at hnd
      simp [List.nodup_append] at hnd
      exact hnd.2
    rw [List.erase_append_right _ hbl]
    simp

theorem getLast?_append_cons (l₁ : List Nat) (x : Nat) (l₂ : List Nat) :
    (l₁ ++ x :: l₂).getLast? = (x :: l₂).getLast? := by
  induction l₁ with
  | nil => rfl
  | cons a t ih =>
    cases t with
    | nil => simp [List.getLast?_cons_cons]
    | cons b t' =>
      rw [List.cons_append, List.cons_append, List.getLast?_cons_cons]
      exact ih

theorem kmFields_transfer {c c' : LRUCache} {l l' : List Nat} (w : WFl c l)
    (hmem : ∀ x, x ∈ l' ↔ x ∈ l)
    (hkm : c'.keymap = c.keymap)
    (hkv : ∀ x, (lookupStore c'.store x).map Entry.key
      = (lookupStore c.store x).map Entry.key) :
    (∀ k i, mapGet c'.keymap k = some i →
      i ∈ l' ∧ ∃ e, lookupStore c'.store i = some e ∧ e.key = k) ∧
    (∀ i ∈ l', ∃ e, lookupStore c'.store i = some e ∧
      mapGet c'.keymap e.key = some i) := by
  constructor
  · intro k i h
    rw [hkm] at h
    obtain ⟨hm, e, he, hek⟩ := w.kmSound k i h
    refine ⟨(hmem i).2 hm, ?_⟩
    have hv := hkv i
    rw [he] at hv
    cases hlk : lookupStore c'.store i with
    | none =>
      rw [hlk] at hv
      simp at hv
    | some e' =>
      rw [hlk] at hv
      simp at hv
      exact ⟨e', rfl, hv.trans hek⟩
  · intro i hi
    obtain ⟨e, he, hkme⟩ := w.kmComplete i ((hmem i).1 hi)
    have hv := hkv i
    rw [he] at hv
    cases hlk : lookupStore c'.store i with
    | none =>
      rw [hlk] at hv
      simp at hv
    | some e' =>
      rw [hlk] at hv
      simp at hv
      refine ⟨e', rfl, ?_⟩
      rw [hkm, hv]
      exact hkme

theorem WFl_rebuild (c : LRUCache) (S5 : Store Entry) (tl' : Option Nat)
    (l l' : List Nat) (w : WFl c l) (i : Nat)
    (hmem : ∀ x, x ∈ l' ++ [i] ↔ x ∈ l)
    (hnd : (l' ++ [i]).Nodup)
    (hlen : l.length = l'.length + 1)
    (htl : tl' = (l' ++ [i]).head?)
    (hchain : seg S5 none (l' ++ [i]) none = true)
    (hkv : ∀ x, (lookupStore S5 x).map Entry.key
      = (lookupStore c.store x).map Entry.key)
    (hbound : ∀ p ∈ S5, p.1 < c.nextId) :
    WFl { c with tail := tl', head := some i, store := S5 } (l' ++ [i]) := by
  have htr := @kmFields_transfer c
    { c with tail := tl', head := some i, store := S5 } l (l' ++ [i])
    w hmem rfl hkv
  exact ⟨hnd, htl, by simp, hchain, by simp [w.sizeEq, hlen], w.kmKeysNodup,
    htr.1, htr.2, hbound⟩

theorem markUsed_WFl (c : LRUCache) (i : Nat) (ra : Bool) (now : Nat)
    (l : List Nat) (w : WFl c l) (hi : i ∈ l) :
    WFl (markEntryAsUsed c i ra now) (l.erase i ++ [i]) := by
  by_cases hhead : c.head = some i
  · -- the entry is already the newest one: the routine returns at once
    have hst : markEntryAsUsed c i ra now = c := by
      unfold markEntryAsUsed
      rw [if_pos hhead]
    have hl : l.erase i ++ [i] = l :=
      erase_getLast_append l i w.idsNodup (w.headEq.symm.trans hhead)
    rw [hst, hl]
    exact w
  · obtain ⟨l₁, l₂, rfl⟩ := List.append_of_mem hi
    have hnd := w.idsNodup
    rw [List.nodup_append] at hnd
    obtain ⟨hndl₁, hndil₂, hdisj⟩ := hnd
    have hil₁ : i ∉ l₁ := fun hx => hdisj hx (by simp)
    rw [List.nodup_cons] at hndil₂
    obtain ⟨hil₂, hndl₂⟩ := hndil₂
    have herase : (l₁ ++ i :: l₂).erase i = l₁ ++ l₂ := by
      rw [List.erase_append_right _ hil₁, List.erase_cons_head]
    rw [herase]
    have hchain := w.chain
    rw [seg_append] at hchain
    simp only [Bool.and_eq_true] at hchain
    obtain ⟨hseg₁, hseg₂⟩ := hchain
    have hseg₁' : seg c.store none l₁ (some i) = true := by
      simpa [headOr] using hseg₁
    obtain ⟨e, he, henext, heprev, hseg₂'⟩ := seg_cons_elim _ _ _ i l₂ hseg₂
    cases l₂ with
    | nil =>
      exact absurd (by rw [w.headEq, getLast?_append_cons]; rfl) hhead
    | cons j l₂' =>
      obtain ⟨ej, hej, hejnext, hejprev, hsegl₂'⟩ :=
        seg_cons_elim _ _ _ j l₂' hseg₂'
      have heprev' : e.previous = some j := by simpa [headOr] using heprev
      rw [List.nodup_cons] at hndl₂
      obtain ⟨hjl₂', hndl₂'⟩ := hndl₂
      have hij : i ≠ j := fun hx => hil₂ (by simp [hx])
      have hjl₁ : j ∉ l₁ := fun hx => hdisj hx (by simp)
      have hmem : ∀ x, x ∈ (l₁ ++ j :: l₂') ++ [i] ↔ x ∈ l₁ ++ i :: j :: l₂' := by
        intro x
        simp only [List.mem_append, List.mem_cons, List.mem_singleton]
        tauto
      have hnd' : ((l₁ ++ j :: l₂') ++ [i]).Nodup := by
        refine List.Nodup.append ?_ (List.nodup_singleton i) ?_
        · rw [List.nodup_append]
          refine ⟨hndl₁, by rw [List.nodup_cons]; exact ⟨hjl₂', hndl₂'⟩, ?_⟩
          intro a ha hb
          exact hdisj ha (by simp [List.mem_cons.1 hb])
        · intro a ha hb
          simp at hb
          subst hb
          rcases List.mem_append.1 ha with h1 | h2
          · exact hil₁ h1
          · exact hil₂ (by simp [List.mem_cons.1 h2])
      have hlen : (l₁ ++ i :: j :: l₂').length = (l₁ ++ j :: l₂').length + 1 := by
        simp
        omega
      rcases List.eq_nil_or_concat l₂' with h2 | ⟨m₂', H, h2⟩
      · subst h2
        cases l₁ with
        | nil =>
          have htail : c.tail = some i := by rw [w.tailEq]; rfl
          have hH : c.head = some j := by rw [w.headEq]; rfl
          have henext' : e.next = none := henext
          set S : Store Entry := updateStore (updateStore (updateStore
              (updateStore c.store j (fun pe => { pe with next := e.next })) i
              (fun ee => { ee with previous := none })) j
              (fun he => { he with previous := some i })) i
              (fun ee => { ee with next := some j }) with hS
          have hstate : markEntryAsUsed c i ra now =
              (if ra then
                { c with
                  tail := some j, head := some i, store := S,
                  createdAtProp := some now }
               else
                { c with
                  tail := some j, head := some i, store := S }) := by
            rw [hS]
            unfold markEntryAsUsed
            rw [if_neg hhead]
            simp only [he]
            simp only [heprev']
            try dsimp only
            rw [if_pos htail, if_pos htail, hH]
          rw [hstate]
          have hlookj : lookupStore S j
              = some ⟨ej.key, ej.value, ej.created_at, some i, e.next⟩ := by
            rw [hS, lookupStore_update_ne _ _ _ _ (Ne.symm hij),
                lookupStore_update_self,
                lookupStore_update_ne _ _ _ _ (Ne.symm hij),
                lookupStore_update_self, hej]
            rfl
          have hlooki : lookupStore S i
              = some ⟨e.key, e.value, e.created_at, none, some j⟩ := by
            rw [hS, lookupStore_update_self,
                lookupStore_update_ne _ _ _ _ hij,
                lookupStore_update_self,
                lookupStore_update_ne _ _ _ _ hij, he]
            rfl
          have hchain : seg S none (([] ++ j :: []) ++ [i]) none = true := by
            show seg S none (j :: [i]) none = true
            refine seg_cons_intro S none none j [i]
              ⟨ej.key, ej.value, ej.created_at, some i, e.next⟩ hlookj henext'
              rfl ?_
            exact seg_cons_intro S (some j) none i []
              ⟨e.key, e.value, e.created_at, none, some j⟩ hlooki rfl rfl rfl
          have hkv : ∀ x, (lookupStore S x).map Entry.key
              = (lookupStore c.store x).map Entry.key := by
            intro x
            rw [hS,
                lookup_update_key _ i (fun ee => { ee with next := some j })
                  (fun _ => rfl) x,
                lookup_update_key _ j (fun h0 => { h0 with previous := some i })
                  (fun _ => rfl) x,
                lookup_update_key _ i (fun ee => { ee with previous := none })
                  (fun _ => rfl) x,
                lookup_update_key _ j (fun pe => { pe with next := e.next })
                  (fun _ => rfl) x]
          have hbound : ∀ p ∈ S, p.1 < c.nextId := by
            rw [hS]
            exact storeBound_update _ _ _ _ (storeBound_update _ _ _ _
              (storeBound_update _ _ _ _
                (storeBound_update _ _ _ _ w.storeBound)))
          have htl : (some j : Option Nat) = (([] ++ j :: []) ++ [i]).head? :=
            rfl
          have hwf := WFl_rebuild c S (some j) _ _ w i hmem hnd' hlen htl
            hchain hkv hbound
          cases ra
          · rw [if_neg Bool.false_ne_true]
            exact hwf
          · rw [if_pos rfl]
            exact ⟨hwf.idsNodup, hwf.tailEq, hwf.headEq, hwf.chain, hwf.sizeEq,
              hwf.kmKeysNodup, hwf.kmSound, hwf.kmComplete, hwf.storeBound⟩
        | cons a t₁ =>
          have hai : a ≠ i := fun hx => hil₁ (hx ▸ List.mem_cons_self a t₁)
          have htail' : c.tail = some a := by rw [w.tailEq]; rfl
          have hne : ¬ c.tail = some i := by
            rw [htail']
            exact fun hx => hai (Option.some.inj hx)
          obtain ⟨m₁, nx, hl₁⟩ : ∃ m x, a :: t₁ = m ++ [x] := by
            rcases List.eq_nil_or_concat (a :: t₁) with h1 | ⟨m, x, h⟩
            · simp at h1
            · exact ⟨m, x, by simpa [List.concat_eq_append] using h⟩
          have henx : e.next = some nx := by
            rw [henext, hl₁, lastOr_append_single]
          have hnxmem : nx ∈ a :: t₁ := by rw [hl₁]; simp
          have hnxi : nx ≠ i := fun hx => hil₁ (hx ▸ hnxmem)
          have hnxj : nx ≠ j := fun hx => hjl₁ (hx ▸ hnxmem)
          have hH : c.head = some j := by
            rw [w.headEq, getLast?_append_cons]
            rfl
          set S : Store Entry := updateStore (updateStore (updateStore
              (updateStore (updateStore c.store j
                (fun pe => { pe with next := some nx })) nx
                (fun ne => { ne with previous := some j })) i
              (fun ee => { ee with previous := none })) j
              (fun h0 => { h0 with previous := some i })) i
              (fun ee => { ee with next := some j }) with hS
          have hstate : markEntryAsUsed c i ra now =
              (if ra then
                { c with
                  head := some i, store := S,
                  createdAtProp := some now }
               else
                { c with
                  head := some i, store := S }) := by
            rw [hS]
            unfold markEntryAsUsed
            rw [if_neg hhead]
            simp only [he]
            simp only [heprev']
            try dsimp only
            rw [if_neg hne]
            simp only [henx]
            try dsimp only
            rw [if_neg hne, hH]
          rw [hstate]
          have hlookj : lookupStore S j
              = some ⟨ej.key, ej.value, ej.created_at, some i, some nx⟩ := by
            rw [hS, lookupStore_update_ne _ _ _ _ (Ne.symm hij),
                lookupStore_update_self,
                lookupStore_update_ne _ _ _ _ (Ne.symm hij),
                lookupStore_update_ne _ _ _ _ (Ne.symm hnxj),
                lookupStore_update_self, hej]
            rfl
          have hlooki : lookupStore S i
              = some ⟨e.key, e.value, e.created_at, none, some j⟩ := by
            rw [hS, lookupStore_update_self,
                lookupStore_update_ne _ _ _ _ hij,
                lookupStore_update_self,
                lookupStore_update_ne _ _ _ _ (Ne.symm hnxi),
                lookupStore_update_ne _ _ _ _ hij, he]
            rfl
          obtain ⟨enx, hlooknx0⟩ := seg_mem_lookup c.store (a :: t₁) none
            (some i) nx hseg₁' hnxmem
          have hlooknx : lookupStore S nx
              = some { enx with previous := some j } := by
            rw [hS, lookupStore_update_ne _ _ _ _ hnxi,
                lookupStore_update_ne _ _ _ _ hnxj,
                lookupStore_update_ne _ _ _ _ hnxi,
                lookupStore_update_self,
                lookupStore_update_ne _ _ _ _ hnxj, hlooknx0]
            rfl
          have hndm₁ : nx ∉ m₁ := by
            have h := hndl₁
            rw [hl₁, List.nodup_append] at h
            exact fun hx => h.2.2 hx (by simp)
          have hm₁l₁ : ∀ x ∈ m₁, x ∈ a :: t₁ := by
            intro x hx
            rw [hl₁]
            exact List.mem_append_left _ hx
          have hcongr₁ : ∀ x ∈ m₁, lookupStore S x = lookupStore c.store x := by
            intro x hx
            have hxl₁ := hm₁l₁ x hx
            have hxi : x ≠ i := fun hh => hil₁ (hh ▸ hxl₁)
            have hxj : x ≠ j := fun hh => hjl₁ (hh ▸ hxl₁)
            have hxnx : x ≠ nx := fun hh => hndm₁ (hh ▸ hx)
            rw [hS, lookupStore_update_ne _ _ _ _ hxi,
                lookupStore_update_ne _ _ _ _ hxj,
                lookupStore_update_ne _ _ _ _ hxi,
                lookupStore_update_ne _ _ _ _ hxnx,
                lookupStore_update_ne _ _ _ _ hxj]
          have hchain : seg S none (((a :: t₁) ++ j :: []) ++ [i]) none
              = true := by
            rw [seg_append]
            simp only [Bool.and_eq_true]
            refine ⟨?_, ?_⟩
            · rw [seg_append]
              simp only [Bool.and_eq_true]
              refine ⟨?_, ?_⟩
              · rw [hl₁]
                show seg S none (m₁ ++ [nx]) (some j) = true
                refine seg_update_last c.store S none (some i) (some j) m₁ nx
                  enx { enx with previous := some j } ?_ hcongr₁ hlooknx0
                  hlooknx rfl rfl
                rw [← hl₁]
                exact hseg₁'
              · rw [hl₁, lastOr_append_single]
                exact seg_cons_intro S (some nx) (some i) j []
                  ⟨ej.key, ej.value, ej.created_at, some i, some nx⟩ hlookj
                  rfl rfl rfl
            · rw [lastOr_append_single]
              exact seg_cons_intro S (some j) none i []
                ⟨e.key, e.value, e.created_at, none, some j⟩ hlooki rfl rfl rfl
          have hkv : ∀ x, (lookupStore S x).map Entry.key
              = (lookupStore c.store x).map Entry.key := by
            intro x
            rw [hS,
                lookup_update_key _ i (fun ee => { ee with next := some j })
                  (fun _ => rfl) x,
                lookup_update_key _ j (fun h0 => { h0 with previous := some i })
                  (fun _ => rfl) x,
                lookup_update_key _ i (fun ee => { ee with previous := none })
                  (fun _ => rfl) x,
                lookup_update_key _ nx (fun ne => { ne with previous := some j })
                  (fun _ => rfl) x,
                lookup_update_key _ j (fun pe => { pe with next := some nx })
                  (fun _ => rfl) x]
          have hbound : ∀ p ∈ S, p.1 < c.nextId := by
            rw [hS]
            exact storeBound_update _ _ _ _ (storeBound_update _ _ _ _
              (storeBound_update _ _ _ _ (storeBound_update _ _ _ _
                (storeBound_update _ _ _ _ w.storeBound))))
          have htl : c.tail = (((a :: t₁) ++ j :: []) ++ [i]).head? := by
            rw [htail']
            rfl
          have hwf := WFl_rebuild c S c.tail _ _ w i hmem hnd' hlen htl hchain
            hkv hbound
          cases ra
          · rw [if_neg Bool.false_ne_true]
            exact hwf
          · rw [if_pos rfl]
            exact ⟨hwf.idsNodup, hwf.tailEq, hwf.headEq, hwf.chain, hwf.sizeEq,
              hwf.kmKeysNodup, hwf.kmSound, hwf.kmComplete, hwf.storeBound⟩
      · simp only [List.concat_eq_append] at h2
        subst h2
        have hHi : H ≠ i := by
          intro hx
          subst hx
          exact hil₂ (by simp)
        have hHj : H ≠ j := by
          intro hx
          subst hx
          exact hjl₂' (by simp)
        have hHm₂' : H ∉ m₂' := by
          have h := hndl₂'
          rw [List.nodup_append] at h
          exact fun hx => h.2.2 hx (by simp)
        obtain ⟨eH, hlookH0⟩ := seg_mem_lookup c.store (m₂' ++ [H]) (some j)
          none H hsegl₂' (by simp)
        have hH : c.head = some H := by
          rw [w.headEq, getLast?_append_cons]
          rw [show (i :: j :: (m₂' ++ [H])) = (i :: j :: m₂') ++ [H] by simp]
          exact List.getLast?_concat _
        cases l₁ with
        | nil =>
          have htail : c.tail = some i := by rw [w.tailEq]; rfl
          have henext' : e.next = none := henext
          set S : Store Entry := updateStore (updateStore (updateStore
              (updateStore c.store j (fun pe => { pe with next := e.next })) i
              (fun ee => { ee with previous := none })) H
              (fun h0 => { h0 with previous := some i })) i
              (fun ee => { ee with next := some H }) with hS
          have hstate : markEntryAsUsed c i ra now =
              (if ra then
                { c with
                  tail := some j, head := some i, store := S,
                  createdAtProp := some now }
               else
                { c with
                  tail := some j, head := some i, store := S }) := by
            rw [hS]
            unfold markEntryAsUsed
            rw [if_neg hhead]
            simp only [he]
            simp only [heprev']
            try dsimp only
            rw [if_pos htail, if_pos htail, hH]
          rw [hstate]
          have hlookj : lookupStore S j
              = some ⟨ej.key, ej.value, ej.created_at, ej.previous, e.next⟩ := by
            rw [hS, lookupStore_update_ne _ _ _ _ (Ne.symm hij),
                lookupStore_update_ne _ _ _ _ (Ne.symm hHj),
                lookupStore_update_ne _ _ _ _ (Ne.symm hij),
                lookupStore_update_self, hej]
            rfl
          have hlooki : lookupStore S i
              = some ⟨e.key, e.value, e.created_at, none, some H⟩ := by
            rw [hS, lookupStore_update_self,
                lookupStore_update_ne _ _ _ _ (Ne.symm hHi),
                lookupStore_update_self,
                lookupStore_update_ne _ _ _ _ hij, he]
            rfl
          have hlookH : lookupStore S H
              = some { eH with previous := some i } := by
            rw [hS, lookupStore_update_ne _ _ _ _ hHi,
                lookupStore_update_self,
                lookupStore_update_ne _ _ _ _ hHi,
                lookupStore_update_ne _ _ _ _ hHj, hlookH0]
            rfl
          have hcongr₂ : ∀ x ∈ m₂', lookupStore S x = lookupStore c.store x := by
            intro x hx
            have hxl : x ∈ j :: (m₂' ++ [H]) :=
              List.mem_cons_of_mem j (List.mem_append_left _ hx)
            have hxi : x ≠ i := fun hh => hil₂ (hh ▸ hxl)
            have hxj : x ≠ j := fun hh => hjl₂' (hh ▸ List.mem_append_left _ hx)
            have hxH : x ≠ H := fun hh => hHm₂' (hh ▸ hx)
            rw [hS, lookupStore_update_ne _ _ _ _ hxi,
                lookupStore_update_ne _ _ _ _ hxH,
                lookupStore_update_ne _ _ _ _ hxi,
                lookupStore_update_ne _ _ _ _ hxj]
          have hchain : seg S none (([] ++ j :: (m₂' ++ [H])) ++ [i]) none
              = true := by
            rw [seg_append]
            simp only [Bool.and_eq_true]
            refine ⟨?_, ?_⟩
            · show seg S none (j :: (m₂' ++ [H])) (some i) = true
              refine seg_cons_intro S none (some i) j (m₂' ++ [H])
                ⟨ej.key, ej.value, ej.created_at, ej.previous, e.next⟩ hlookj
                henext' ?_ ?_
              · show ej.previous = headOr (m₂' ++ [H]) (some i)
                rw [hejprev, headOr_append, headOr_append]
                rfl
              · show seg S (some j) (m₂' ++ [H]) (some i) = true
                exact seg_update_last c.store S (some j) none (some i) m₂' H
                  eH { eH with previous := some i } hsegl₂' hcongr₂ hlookH0
                  hlookH rfl rfl
            · rw [show ([] ++ j :: (m₂' ++ [H])) = (j :: m₂') ++ [H] by simp,
                  lastOr_append_single]
              exact seg_cons_intro S (some H) none i []
                ⟨e.key, e.value, e.created_at, none, some H⟩ hlooki rfl rfl rfl
          have hkv : ∀ x, (lookupStore S x).map Entry.key
              = (lookupStore c.store x).map Entry.key := by
            intro x
            rw [hS,
                lookup_update_key _ i (fun ee => { ee with next := some H })
                  (fun _ => rfl) x,
                lookup_update_key _ H (fun h0 => { h0 with previous := some i })
                  (fun _ => rfl) x,
                lookup_update_key _ i (fun ee => { ee with previous := none })
                  (fun _ => rfl) x,
                lookup_update_key _ j (fun pe => { pe with next := e.next })
                  (fun _ => rfl) x]
          have hbound : ∀ p ∈ S, p.1 < c.nextId := by
            rw [hS]
            exact storeBound_update _ _ _ _ (storeBound_update _ _ _ _
              (storeBound_update _ _ _ _
                (storeBound_update _ _ _ _ w.storeBound)))
          have htl : (some j : Option Nat)
              = (([] ++ j :: (m₂' ++ [H])) ++ [i]).head? := rfl
          have hwf := WFl_rebuild c S (some j) _ _ w i hmem hnd' hlen htl
            hchain hkv hbound
          cases ra
          · rw [if_neg Bool.false_ne_true]
            exact hwf
          · rw [if_pos rfl]
            exact ⟨hwf.idsNodup, hwf.tailEq, hwf.headEq, hwf.chain, hwf.sizeEq,
              hwf.kmKeysNodup, hwf.kmSound, hwf.kmComplete, hwf.storeBound⟩
        | cons a t₁ =>
          have hai : a ≠ i := fun hx => hil₁ (hx ▸ List.mem_cons_self a t₁)
          have htail' : c.tail = some a := by rw [w.tailEq]; rfl
          have hne : ¬ c.tail = some i := by
            rw [htail']
            exact fun hx => hai (Option.some.inj hx)
          obtain ⟨m₁, nx, hl₁⟩ : ∃ m x, a :: t₁ = m ++ [x] := by
            rcases List.eq_nil_or_concat (a :: t₁) with h1 | ⟨m, x, h⟩
            · simp at h1
            · exact ⟨m, x, by simpa [List.concat_eq_append] using h⟩
          have henx : e.next = some nx := by
            rw [henext, hl₁, lastOr_append_single]
          have hnxmem : nx ∈ a :: t₁ := by rw [hl₁]; simp
          have hnxi : nx ≠ i := fun hx => hil₁ (hx ▸ hnxmem)
          have hnxj : nx ≠ j := fun hx => hjl₁ (hx ▸ hnxmem)
          have hnxH : nx ≠ H := fun hx => hdisj hnxmem (by rw [hx]; simp)
          set S : Store Entry := updateStore (updateStore (updateStore
              (updateStore (updateStore c.store j
                (fun pe => { pe with next := some nx })) nx
                (fun ne => { ne with previous := some j })) i
              (fun ee => { ee with previous := none })) H
              (fun h0 => { h0 with previous := some i })) i
              (fun ee => { ee with next := some H }) with hS
          have hstate : markEntryAsUsed c i ra now =
              (if ra then
                { c with
                  head := some i, store := S,
                  createdAtProp := some now }
               else
                { c with
                  head := some i, store := S }) := by
            rw [hS]
            unfold markEntryAsUsed
            rw [if_neg hhead]
            simp only [he]
            simp only [heprev']
            try dsimp only
            rw [if_neg hne]
            simp only [henx]
            try dsimp only
            rw [if_neg hne, hH]
          rw [hstate]
          have hlookj : lookupStore S j
              = some ⟨ej.key, ej.value, ej.created_at, ej.previous, some nx⟩ := by
            rw [hS, lookupStore_update_ne _ _ _ _ (Ne.symm hij),
                lookupStore_update_ne _ _ _ _ (Ne.symm hHj),
                lookupStore_update_ne _ _ _ _ (Ne.symm hij),
                lookupStore_update_ne _ _ _ _ (Ne.symm hnxj),
                lookupStore_update_self, hej]
            rfl
          have hlooki : lookupStore S i
              = some ⟨e.key, e.value, e.created_at, none, some H⟩ := by
            rw [hS, lookupStore_update_self,
                lookupStore_update_ne _ _ _ _ (Ne.symm hHi),
                lookupStore_update_self,
                lookupStore_update_ne _ _ _ _ (Ne.symm hnxi),
                lookupStore_update_ne _ _ _ _ hij, he]
            rfl
          have hlookH : lookupStore S H
              = some { eH with previous := some i } := by
            rw [hS, lookupStore_update_ne _ _ _ _ hHi,
                lookupStore_update_self,
                lookupStore_update_ne _ _ _ _ hHi,
                lookupStore_update_ne _ _ _ _ (Ne.symm hnxH),
                lookupStore_update_ne _ _ _ _ hHj, hlookH0]
            rfl
          obtain ⟨enx, hlooknx0⟩ := seg_mem_lookup c.store (a :: t₁) none
            (some i) nx hseg₁' hnxmem
          have hlooknx : lookupStore S nx
              = some { enx with previous := some j } := by
            rw [hS, lookupStore_update_ne _ _ _ _ hnxi,
                lookupStore_update_ne _ _ _ _ hnxH,
                lookupStore_update_ne _ _ _ _ hnxi,
                lookupStore_update_self,
                lookupStore_update_ne _ _ _ _ hnxj, hlooknx0]
            rfl
          have hndm₁ : nx ∉ m₁ := by
            have h := hndl₁
            rw [hl₁, List.nodup_append] at h
            exact fun hx => h.2.2 hx (by simp)
          have hm₁l₁ : ∀ x ∈ m₁, x ∈ a :: t₁ := by
            intro x hx
            rw [hl₁]
            exact List.mem_append_left _ hx
          have hcongr₁ : ∀ x ∈ m₁, lookupStore S x = lookupStore c.store x := by
            intro x hx
            have hxl₁ := hm₁l₁ x hx
            have hxi : x ≠ i := fun hh => hil₁ (hh ▸ hxl₁)
            have hxj : x ≠ j := fun hh => hjl₁ (hh ▸ hxl₁)
            have hxnx : x ≠ nx := fun hh => hndm₁ (hh ▸ hx)
            have hxH : x ≠ H := fun hh => hdisj hxl₁ (by rw [hh]; simp)
            rw [hS, lookupStore_update_ne _ _ _ _ hxi,
                lookupStore_update_ne _ _ _ _ hxH,
                lookupStore_update_ne _ _ _ _ hxi,
                lookupStore_update_ne _ _ _ _ hxnx,
                lookupStore_update_ne _ _ _ _ hxj]
          have hcongr₂ : ∀ x ∈ m₂', lookupStore S x = lookupStore c.store x := by
            intro x hx
            have hxl : x ∈ j :: (m₂' ++ [H]) :=
              List.mem_cons_of_mem j (List.mem_append_left _ hx)
            have hxi : x ≠ i := fun hh => hil₂ (hh ▸ hxl)
            have hxj : x ≠ j := fun hh => hjl₂' (hh ▸ List.mem_append_left _ hx)
            have hxH : x ≠ H := fun hh => hHm₂' (hh ▸ hx)
            have hxnx : x ≠ nx := fun hh =>
              hdisj hnxmem (hh ▸ List.mem_cons_of_mem i hxl)
            rw [hS, lookupStore_update_ne _ _ _ _ hxi,
                lookupStore_update_ne _ _ _ _ hxH,
                lookupStore_update_ne _ _ _ _ hxi,
                lookupStore_update_ne _ _ _ _ hxnx,
                lookupStore_update_ne _ _ _ _ hxj]
          have hchain : seg S none
              (((a :: t₁) ++ j :: (m₂' ++ [H])) ++ [i]) none = true := by
            rw [seg_append]
            simp only [Bool.and_eq_true]
            refine ⟨?_, ?_⟩
            · rw [seg_append]
              simp only [Bool.and_eq_true]
              refine ⟨?_, ?_⟩
              · rw [hl₁]
                show seg S none (m₁ ++ [nx]) (some j) = true
                refine seg_update_last c.store S none (some i) (some j) m₁ nx
                  enx { enx with previous := some j } ?_ hcongr₁ hlooknx0
                  hlooknx rfl rfl
                rw [← hl₁]
                exact hseg₁'
              · rw [hl₁, lastOr_append_single]
                show seg S (some nx) (j :: (m₂' ++ [H])) (some i) = true
                refine seg_cons_intro S (some nx) (some i) j (m₂' ++ [H])
                  ⟨ej.key, ej.value, ej.created_at, ej.previous, some nx⟩ hlookj
                  rfl ?_ ?_
                · show ej.previous = headOr (m₂' ++ [H]) (some i)
                  rw [hejprev, headOr_append, headOr_append]
                  rfl
                · show seg S (some j) (m₂' ++ [H]) (some i) = true
                  exact seg_update_last c.store S (some j) none (some i) m₂' H
                    eH { eH with previous := some i } hsegl₂' hcongr₂ hlookH0
                    hlookH rfl rfl
            · rw [show ((a :: t₁) ++ j :: (m₂' ++ [H]))
                    = ((a :: t₁ ++ j :: m₂') ++ [H]) by simp,
                  lastOr_append_single]
              exact seg_cons_intro S (some H) none i []
                ⟨e.key, e.value, e.created_at, none, some H⟩ hlooki rfl rfl rfl
          have hkv : ∀ x, (lookupStore S x).map Entry.key
              = (lookupStore c.store x).map Entry.key := by
            intro x
            rw [hS,
                lookup_update_key _ i (fun ee => { ee with next := some H })
                  (fun _ => rfl) x,
                lookup_update_key _ H (fun h0 => { h0 with previous := some i })
                  (fun _ => rfl) x,
                lookup_update_key _ i (fun ee => { ee with previous := none })
                  (fun _ => rfl) x,
                lookup_update_key _ nx (fun ne => { ne with previous := some j })
                  (fun _ => rfl) x,
                lookup_update_key _ j (fun pe => { pe with next := some nx })
                  (fun _ => rfl) x]
          have hbound : ∀ p ∈ S, p.1 < c.nextId := by
            rw [hS]
            exact storeBound_update _ _ _ _ (storeBound_update _ _ _ _
              (storeBound_update _ _ _ _ (storeBound_update _ _ _ _
                (storeBound_update _ _ _ _ w.storeBound))))
          have htl : c.tail
              = (((a :: t₁) ++ j :: (m₂' ++ [H])) ++ [i]).head? := by
            rw [htail']
            rfl
          have hwf := WFl_rebuild c S c.tail _ _ w i hmem hnd' hlen htl hchain
            hkv hbound
          cases ra
          · rw [if_neg Bool.false_ne_true]
            exact hwf
          · rw [if_pos rfl]
            exact ⟨hwf.idsNodup, hwf.tailEq, hwf.headEq, hwf.chain, hwf.sizeEq,
              hwf.kmKeysNodup, hwf.kmSound, hwf.kmComplete, hwf.storeBound⟩

theorem seg_update_preserve (s : Store Entry) (i : Nat) (f : Entry → Entry)
    (hp : ∀ e, (f e).previous = e.previous)
    (hn : ∀ e, (f e).next = e.next) :
    ∀ (l : List Nat) (o n : Option Nat),
      seg (updateStore s i f) o l n = seg s o l n := by
  intro l
  induction l with
  | nil => intro o n; rfl
  | cons j rest ih =>
    intro o n
    by_cases hj : j = i
    · subst hj
      simp only [seg]
      rw [lookupStore_update_self]
      cases hl : lookupStore s j with
      | none => rfl
      | some e => simp [hp e, hn e, ih]
    · simp only [seg]
      rw [lookupStore_update_ne _ _ _ _ hj]
      cases hl : lookupStore s j with
      | none => rfl
      | some e => simp [ih]

theorem WFl_update_entry (c : LRUCache) (i : Nat) (f : Entry → Entry)
    (hk : ∀ e, (f e).key = e.key)
    (hp : ∀ e, (f e).previous = e.previous)
    (hn : ∀ e, (f e).next = e.next)
    (l : List Nat) (w : WFl c l) :
    WFl { c with store := updateStore c.store i f } l := by
  have hkv : ∀ x, (lookupStore (updateStore c.store i f) x).map Entry.key
      = (lookupStore c.store x).map Entry.key :=
    fun x => lookup_update_key c.store i f hk x
  have htr := @kmFields_transfer c { c with store := updateStore c.store i f }
    l l w (fun x => Iff.rfl) rfl hkv
  have hchain : seg (updateStore c.store i f) none l none = true := by
    rw [seg_update_preserve c.store i f hp hn]
    exact w.chain
  exact ⟨w.idsNodup, w.tailEq, w.headEq, hchain, w.sizeEq, w.kmKeysNodup,
    htr.1, htr.2, storeBound_update _ _ _ _ w.storeBound⟩

theorem kmFields_delete_transfer {c c' : LRUCache} {l : List Nat} {i k : Nat}
    (w : WFl c l) (hi : mapGet c.keymap k = some i)
    (hkm : c'.keymap = mapDelete c.keymap k)
    (hkv : ∀ x, (lookupStore c'.store x).map Entry.key
      = (lookupStore c.store x).map Entry.key) :
    (∀ k' i', mapGet c'.keymap k' = some i' →
      i' ∈ l.erase i ∧ ∃ e, lookupStore c'.store i' = some e ∧ e.key = k') ∧
    (∀ i' ∈ l.erase i, ∃ e, lookupStore c'.store i' = some e ∧
      mapGet c'.keymap e.key = some i') := by
  have hmem : ∀ x, x ∈ l.erase i ↔ x ≠ i ∧ x ∈ l := fun x =>
    w.idsNodup.mem_erase_iff
  constructor
  · intro k' i' h
    rw [hkm] at h
    by_cases hkk : k' = k
    · subst hkk
      rw [mapGet_delete_self] at h
      simp at h
    · rw [mapGet_delete_ne _ _ _ hkk] at h
      obtain ⟨hm, e, he, hek⟩ := w.kmSound k' i' h
      have hne : i' ≠ i := by
        intro hx
        subst hx
        obtain ⟨hmi, e2, he2, he2k⟩ := w.kmSound k i' hi
        rw [he] at he2
        injection he2 with hee
        subst hee
        exact hkk (hek.symm.trans he2k)
      refine ⟨(hmem i').2 ⟨hne, hm⟩, ?_⟩
      have hv := hkv i'
      rw [he] at hv
      cases hlk : lookupStore c'.store i' with
      | none => rw [hlk] at hv; simp at hv
      | some e' =>
        rw [hlk] at hv
        simp at hv
        exact ⟨e', rfl, hv.trans hek⟩
  · intro i' hi'
    obtain ⟨hne, hm⟩ := (hmem i').1 hi'
    obtain ⟨e, he, hek⟩ := w.kmComplete i' hm
    have hkne : e.key ≠ k := by
      intro hx
      rw [hx, hi] at hek
      injection hek with hee
      exact hne hee.symm
    have hv := hkv i'
    rw [he] at hv
    cases hlk : lookupStore c'.store i' with
    | none => rw [hlk] at hv; simp at hv
    | some e' =>
      rw [hlk] at hv
      simp at hv
      refine ⟨e', rfl, ?_⟩
      rw [hkm, hv, mapGet_delete_ne _ _ _ hkne]
      exact hek

theorem delete_absent (c : LRUCache) (k : Nat)
    (h : mapGet c.keymap k = none) : c.delete k = (none, c) := by
  unfold LRUCache.delete
  simp only [h]

theorem WFl_rebuild_del (c : LRUCache) (S : Store Entry) (tl' hd' : Option Nat)
    (l : List Nat) (w : WFl c l) (i k : Nat)
    (hi : mapGet c.keymap k = some i) (him : i ∈ l)
    (htl : tl' = (l.erase i).head?)
    (hhd : hd' = (l.erase i).getLast?)
    (hchain : seg S none (l.erase i) none = true)
    (hkv : ∀ x, (lookupStore S x).map Entry.key
      = (lookupStore c.store x).map Entry.key)
    (hbound : ∀ p ∈ S, p.1 < c.nextId) :
    WFl { c with keymap := mapDelete c.keymap k, store := S, tail := tl',
                 head := hd', size := c.size - 1 } (l.erase i) := by
  have htr := @kmFields_delete_transfer c
    { c with keymap := mapDelete c.keymap k, store := S, tail := tl',
             head := hd', size := c.size - 1 } l i k w hi rfl hkv
  have hsz : c.size - 1 = (l.erase i).length := by
    rw [w.sizeEq, List.length_erase_of_mem him]
  exact ⟨w.idsNodup.erase i, htl, hhd, hchain, hsz,
    mapKeys_nodup_delete _ _ w.kmKeysNodup, htr.1, htr.2, hbound⟩

theorem delete_WFl (c : LRUCache) (k i : Nat) (l : List Nat) (w : WFl c l)
    (hi : mapGet c.keymap k = some i) :
    ∃ e, lookupStore c.store i = some e ∧ e.key = k ∧
      (c.delete k).1 = some e.value ∧ WFl (c.delete k).2 (l.erase i) := by
  obtain ⟨him, e, he, hek⟩ := w.kmSound k i hi
  subst hek
  obtain ⟨l₁, l₂, rfl⟩ := List.append_of_mem him
  have hnd := w.idsNodup
  rw [List.nodup_append] at hnd
  obtain ⟨hndl₁, hndil₂, hdisj⟩ := hnd
  have hil₁ : i ∉ l₁ := fun hx => hdisj hx (by simp)
  rw [List.nodup_cons] at hndil₂
  obtain ⟨hil₂, hndl₂⟩ := hndil₂
  have herase : (l₁ ++ i :: l₂).erase i = l₁ ++ l₂ := by
    rw [List.erase_append_right _ hil₁, List.erase_cons_head]
  have hchain := w.chain
  rw [seg_append] at hchain
  simp only [Bool.and_eq_true] at hchain
  obtain ⟨hseg₁, hseg₂⟩ := hchain
  have hseg₁' : seg c.store none l₁ (some i) = true := by
    simpa [headOr] using hseg₁
  obtain ⟨e0, he0, henext, heprev, hseg₂'⟩ := seg_cons_elim _ _ _ i l₂ hseg₂
  rw [he] at he0
  injection he0 with hee
  subst hee
  have hmain : (c.delete e.key).1 = some e.value ∧
      WFl (c.delete e.key).2 ((l₁ ++ i :: l₂).erase i) := by
    cases l₂ with
    | nil =>
      have heprev0 : e.previous = none := heprev
      cases l₁ with
      | nil =>
        have henext0 : e.next = none := henext
        have hdel : c.delete e.key = (some e.value,
            { c with
              keymap := mapDelete c.keymap e.key, tail := none, head := none,
              size := c.size - 1 }) := by
          unfold LRUCache.delete
          simp only [hi, he, heprev0, henext0]
        rw [hdel]
        refine ⟨rfl, ?_⟩
        refine WFl_rebuild_del c c.store none none _ w i e.key hi him ?_ ?_ ?_
          (fun x => rfl) w.storeBound
        · rw [herase]
          rfl
        · rw [herase]
          rfl
        · rw [herase]
          rfl
      | cons a t₁ =>
        obtain ⟨m₁, nx, hl₁⟩ : ∃ m x, a :: t₁ = m ++ [x] := by
          rcases List.eq_nil_or_concat (a :: t₁) with h1 | ⟨m, x, h⟩
          · simp at h1
          · exact ⟨m, x, by simpa [List.concat_eq_append] using h⟩
        have henx : e.next = some nx := by
          rw [henext, hl₁, lastOr_append_single]
        have hnxmem : nx ∈ a :: t₁ := by rw [hl₁]; simp
        have hndm₁ : nx ∉ m₁ := by
          have h := hndl₁
          rw [hl₁, List.nodup_append] at h
          exact fun hx => h.2.2 hx (by simp)
        obtain ⟨enx, hlooknx0⟩ := seg_mem_lookup c.store (a :: t₁) none
          (some i) nx hseg₁' hnxmem
        set S : Store Entry := updateStore c.store nx
          (fun ne => { ne with previous := none }) with hS
        have hdel : c.delete e.key = (some e.value,
            { c with
              keymap := mapDelete c.keymap e.key, store := S,
              head := some nx, size := c.size - 1 }) := by
          rw [hS]
          unfold LRUCache.delete
          simp only [hi, he, heprev0, henx]
        have hlooknx : lookupStore S nx
            = some { enx with previous := none } := by
          rw [hS, lookupStore_update_self, hlooknx0]
          rfl
        have hcongr₁ : ∀ x ∈ m₁, lookupStore S x = lookupStore c.store x := by
          intro x hx
          have hxnx : x ≠ nx := fun hh => hndm₁ (hh ▸ hx)
          rw [hS, lookupStore_update_ne _ _ _ _ hxnx]
        have hkv : ∀ x, (lookupStore S x).map Entry.key
            = (lookupStore c.store x).map Entry.key := by
          intro x
          rw [hS, lookup_update_key _ nx
              (fun ne => { ne with previous := none }) (fun _ => rfl) x]
        rw [hdel]
        refine ⟨rfl, ?_⟩
        refine WFl_rebuild_del c S c.tail (some nx) _ w i e.key hi him ?_ ?_ ?_
          hkv (by rw [hS]; exact storeBound_update _ _ _ _ w.storeBound)
        · rw [herase, w.tailEq]
          rfl
        · rw [herase, List.append_nil, hl₁]
          exact (List.getLast?_concat _).symm
        · rw [herase, List.append_nil, hl₁]
          refine seg_update_last c.store S none (some i) none m₁ nx enx
            { enx with previous := none } ?_ hcongr₁ hlooknx0 hlooknx rfl rfl
          rw [← hl₁]
          exact hseg₁'
    | cons j l₂' =>
      have heprev' : e.previous = some j := by simpa [headOr] using heprev
      obtain ⟨ej, hej, hejnext, hejprev, hsegl₂'⟩ :=
        seg_cons_elim _ _ _ j l₂' hseg₂'
      rw [List.nodup_cons] at hndl₂
      obtain ⟨hjl₂', hndl₂'⟩ := hndl₂
      have hij : i ≠ j := fun hx => hil₂ (by simp [hx])
      have hjl₁ : j ∉ l₁ := fun hx => hdisj hx (by simp)
      cases l₁ with
      | nil =>
        have henext0 : e.next = none := henext
        set S : Store Entry := updateStore c.store j
          (fun pe => { pe with next := none }) with hS
        have hdel : c.delete e.key = (some e.value,
            { c with
              keymap := mapDelete c.keymap e.key, store := S,
              tail := some j, size := c.size - 1 }) := by
          rw [hS]
          unfold LRUCache.delete
          simp only [hi, he, heprev', henext0]
        have hlookj : lookupStore S j = some { ej with next := none } := by
          rw [hS, lookupStore_update_self, hej]
          rfl
        have hcg : ∀ x ∈ l₂', lookupStore S x = lookupStore c.store x := by
          intro x hx
          have hxj : x ≠ j := fun hh => hjl₂' (hh ▸ hx)
          rw [hS, lookupStore_update_ne _ _ _ _ hxj]
        have hkv : ∀ x, (lookupStore S x).map Entry.key
            = (lookupStore c.store x).map Entry.key := by
          intro x
          rw [hS, lookup_update_key _ j (fun pe => { pe with next := none })
              (fun _ => rfl) x]
        rw [hdel]
        refine ⟨rfl, ?_⟩
        refine WFl_rebuild_del c S (some j) c.head _ w i e.key hi him ?_ ?_ ?_
          hkv (by rw [hS]; exact storeBound_update _ _ _ _ w.storeBound)
        · rw [herase]
          rfl
        · rw [herase, w.headEq]
          exact List.getLast?_cons_cons
        · rw [herase]
          show seg S none (j :: l₂') none = true
          refine seg_cons_intro S none none j l₂' { ej with next := none }
            hlookj rfl ?_ ?_
          · exact hejprev
          · rw [seg_store_congr c.store S l₂' (some j) none hcg]
            exact hsegl₂'
      | cons a t₁ =>
        obtain ⟨m₁, nx, hl₁⟩ : ∃ m x, a :: t₁ = m ++ [x] := by
          rcases List.eq_nil_or_concat (a :: t₁) with h1 | ⟨m, x, h⟩
          · simp at h1
          · exact ⟨m, x, by simpa [List.concat_eq_append] using h⟩
        have henx : e.next = some nx := by
          rw [henext, hl₁, lastOr_append_single]
        have hnxmem : nx ∈ a :: t₁ := by rw [hl₁]; simp
        have hnxj : nx ≠ j := fun hx => hjl₁ (hx ▸ hnxmem)
        have hndm₁ : nx ∉ m₁ := by
          have h := hndl₁
          rw [hl₁, List.nodup_append] at h
          exact fun hx => h.2.2 hx (by simp)
        have hm₁l₁ : ∀ x ∈ m₁, x ∈ a :: t₁ := by
          intro x hx
          rw [hl₁]
          exact List.mem_append_left _ hx
        obtain ⟨enx, hlooknx0⟩ := seg_mem_lookup c.store (a :: t₁) none
          (some i) nx hseg₁' hnxmem
        set S : Store Entry := updateStore (updateStore c.store nx
            (fun ne => { ne with previous := some j })) j
            (fun pe => { pe with next := some nx }) with hS
        have hdel : c.delete e.key = (some e.value,
            { c with
              keymap := mapDelete c.keymap e.key, store := S,
              size := c.size - 1 }) := by
          rw [hS]
          unfold LRUCache.delete
          simp only [hi, he, heprev', henx]
        have hlookj : lookupStore S j
            = some { ej with next := some nx } := by
          rw [hS, lookupStore_update_self,
              lookupStore_update_ne _ _ _ _ (Ne.symm hnxj), hej]
          rfl
        have hlooknx : lookupStore S nx
            = some { enx with previous := some j } := by
          rw [hS, lookupStore_update_ne _ _ _ _ hnxj,
              lookupStore_update_self, hlooknx0]
          rfl
        have hcongr₁ : ∀ x ∈ m₁, lookupStore S x = lookupStore c.store x := by
          intro x hx
          have hxl₁ := hm₁l₁ x hx
          have hxj : x ≠ j := fun hh => hjl₁ (hh ▸ hxl₁)
          have hxnx : x ≠ nx := fun hh => hndm₁ (hh ▸ hx)
          rw [hS, lookupStore_update_ne _ _ _ _ hxj,
              lookupStore_update_ne _ _ _ _ hxnx]
        have hcg₂ : ∀ x ∈ l₂', lookupStore S x = lookupStore c.store x := by
          intro x hx
          have hxj : x ≠ j := fun hh => hjl₂' (hh ▸ hx)
          have hxnx : x ≠ nx := fun hh => hdisj hnxmem
            (List.mem_cons_of_mem i (List.mem_cons_of_mem j (hh ▸ hx)))
          rw [hS, lookupStore_update_ne _ _ _ _ hxj,
              lookupStore_update_ne _ _ _ _ hxnx]
        have hkv : ∀ x, (lookupStore S x).map Entry.key
            = (lookupStore c.store x).map Entry.key := by
          intro x
          rw [hS,
              lookup_update_key _ j (fun pe => { pe with next := some nx })
                (fun _ => rfl) x,
              lookup_update_key _ nx
                (fun ne => { ne with previous := some j }) (fun _ => rfl) x]
        rw [hdel]
        refine ⟨rfl, ?_⟩
        have hbound : ∀ p ∈ S, p.1 < c.nextId := by
          rw [hS]
          exact storeBound_update _ _ _ _
            (storeBound_update _ _ _ _ w.storeBound)
        refine WFl_rebuild_del c S c.tail c.head _ w i e.key hi him ?_ ?_ ?_
          hkv hbound
        · rw [herase, w.tailEq]
          rfl
        · rw [herase, w.headEq, getLast?_append_cons, getLast?_append_cons]
          exact List.getLast?_cons_cons
        · rw [herase, seg_append]
          simp only [Bool.and_eq_true]
          refine ⟨?_, ?_⟩
          · rw [hl₁]
            show seg S none (m₁ ++ [nx]) (some j) = true
            refine seg_update_last c.store S none (some i) (some j) m₁ nx enx
              { enx with previous := some j } ?_ hcongr₁ hlooknx0 hlooknx
              rfl rfl
            rw [← hl₁]
            exact hseg₁'
          · rw [hl₁, lastOr_append_single]
            refine seg_cons_intro S (some nx) none j l₂'
              { ej with next := some nx } hlookj rfl ?_ ?_
            · exact hejprev
            · rw [seg_store_congr c.store S l₂' (some j) none hcg₂]
              exact hsegl₂'
  exact ⟨e, he, rfl, hmain.1, hmain.2⟩

theorem kvPreserved_refl (s : Store Entry) : KVPreserved s s :=
  fun i e h => ⟨e, h, rfl, rfl⟩

theorem kvPreserved_update_of {s t : Store Entry} {i : Nat}
    {f : Entry → Entry} (hf : ∀ e, (f e).key = e.key ∧ (f e).value = e.value)
    (h : KVPreserved s t) : KVPreserved s (updateStore t i f) := by
  intro j e hj
  obtain ⟨e', he', hk, hv⟩ := h j e hj
  by_cases hji : j = i
  · subst hji
    refine ⟨f e', ?_, ?_, ?_⟩
    · rw [lookupStore_update_self, he']
      rfl
    · rw [(hf e').1, hk]
    · rw [(hf e').2, hv]
  · exact ⟨e', by rw [lookupStore_update_ne _ _ _ _ hji]; exact he', hk, hv⟩

theorem markUsed_kvPreserved (c : LRUCache) (i : Nat) (ra : Bool)
    (now : Nat) :
    KVPreserved c.store (markEntryAsUsed c i ra now).store := by
  by_cases h1 : c.head = some i
  · unfold markEntryAsUsed
    rw [if_pos h1]
    exact kvPreserved_refl _
  · cases hl : lookupStore c.store i with
    | none =>
      unfold markEntryAsUsed
      simp only [if_neg h1, hl]
      exact kvPreserved_refl _
    | some e =>
      cases hp : e.previous with
      | none =>
        unfold markEntryAsUsed
        simp only [if_neg h1, hl, hp]
        exact kvPreserved_refl _
      | some p =>
        unfold markEntryAsUsed
        simp only [if_neg h1, hl, hp]
        by_cases h2 : c.tail = some i <;>
          cases hn : e.next <;>
          cases hhd : c.head <;>
          cases ra <;>
          simp [h2, hn, hhd] <;>
          repeat
            first
            | exact kvPreserved_refl _
            | refine kvPreserved_update_of (fun _ => ⟨rfl, rfl⟩) ?_

set_option maxHeartbeats 1600000 in
theorem markUsed_frame (c : LRUCache) (i : Nat) (ra : Bool) (now : Nat) :
    (markEntryAsUsed c i ra now).size = c.size ∧
    (markEntryAsUsed c i ra now).limit = c.limit ∧
    (markEntryAsUsed c i ra now).lifetime = c.lifetime ∧
    (markEntryAsUsed c i ra now).keymap = c.keymap ∧
    (markEntryAsUsed c i ra now).nextId = c.nextId := by
  by_cases h1 : c.head = some i
  · unfold markEntryAsUsed
    rw [if_pos h1]
    simp
  · cases hl : lookupStore c.store i with
    | none =>
      unfold markEntryAsUsed
      simp [if_neg h1, hl]
    | some e =>
      cases hp : e.previous with
      | none =>
        unfold markEntryAsUsed
        simp [if_neg h1, hl, hp]
      | some p =>
        unfold markEntryAsUsed
        simp only [if_neg h1, hl, hp]
        by_cases h2 : c.tail = some i <;>
          cases hn : e.next <;>
          cases hhd : c.head <;>
          cases ra <;>
          simp [h2, hn, hhd]

theorem setInsert_frame (c : LRUCache) (k v now : Nat) :
    (setInsert c k v now).size = c.size + 1 ∧
    (setInsert c k v now).limit = c.limit ∧
    (setInsert c k v now).lifetime = c.lifetime := by
  unfold setInsert allocEntry
  dsimp only
  split
  · split <;> exact ⟨rfl, rfl, rfl⟩
  · exact ⟨rfl, rfl, rfl⟩

theorem removeLRU_frame (c : LRUCache) :
    (removeLRUItem c).2.limit = c.limit ∧
    (removeLRUItem c).2.lifetime = c.lifetime ∧
    (removeLRUItem c).2.size ≤ c.size := by
  unfold removeLRUItem purgeRemovedEntry
  dsimp only
  repeat' split
  all_goals exact ⟨rfl, rfl, by first | exact le_refl _ | exact Nat.sub_le _ _⟩

theorem delete_frame (c : LRUCache) (k : Nat) :
    (c.delete k).2.limit = c.limit ∧
    (c.delete k).2.lifetime = c.lifetime ∧
    (c.delete k).2.size ≤ c.size := by
  unfold LRUCache.delete
  split
  · exact ⟨rfl, rfl, le_refl _⟩
  · split
    · exact ⟨rfl, rfl, le_refl _⟩
    · dsimp only
      split <;> exact ⟨rfl, rfl, Nat.sub_le _ _⟩

theorem has_state_cases (c : LRUCache) (k now : Nat) :
    (c.has k now).2 = c ∨
    (∃ i, mapGet c.keymap k = some i ∧ (c.has k now).2 = (c.delete k).2) := by
  unfold LRUCache.has
  by_cases h1 : mapHas c.keymap k = true
  · rw [if_pos h1]
    by_cases h2 : c.lifetime = 0
    · rw [if_pos h2]
      left
      rfl
    · rw [if_neg h2]
      cases hg : mapGet c.keymap k with
      | none =>
        simp only [hg]
        left
        trivial
      | some i =>
        simp only [hg]
        cases hl : lookupStore c.store i with
        | none =>
          simp only [hl]
          left
          trivial
        | some e =>
          simp only [hl]
          by_cases ha : ageExpired c.lifetime e.created_at now = true
          · rw [if_pos ha]
            right
            exact ⟨i, rfl, rfl⟩
          · rw [if_neg ha]
            left
            rfl
  · rw [if_neg h1]
    left
    rfl

theorem has_false_of_not_mapHas (c : LRUCache) (k now : Nat)
    (h : mapHas c.keymap k = false) : c.has k now = (false, c) := by
  unfold LRUCache.has
  rw [if_neg (by simp [h])]

theorem has_true_state (c : LRUCache) (k now : Nat)
    (h : (c.has k now).1 = true) : (c.has k now).2 = c := by
  unfold LRUCache.has at h ⊢
  by_cases h1 : mapHas c.keymap k = true
  · rw [if_pos h1] at h ⊢
    by_cases h2 : c.lifetime = 0
    · rw [if_pos h2]
    · rw [if_neg h2] at h ⊢
      cases hg : mapGet c.keymap k with
      | none => simp only [hg]
      | some i =>
        simp only [hg] at h ⊢
        cases hl : lookupStore c.store i with
        | none => simp only [hl]
        | some e =>
          simp only [hl] at h ⊢
          by_cases ha : ageExpired c.lifetime e.created_at now = true
          · rw [if_pos ha] at h
            simp at h
          · rw [if_neg ha]
  · rw [if_neg h1] at h
    simp at h

theorem has_true_mapHas (c : LRUCache) (k now : Nat)
    (h : (c.has k now).1 = true) : mapHas c.keymap k = true := by
  by_cases h1 : mapHas c.keymap k = true
  · exact h1
  · rw [Bool.not_eq_true] at h1
    rw [has_false_of_not_mapHas c k now h1] at h
    simp at h

theorem has_WF (c : LRUCache) (k now : Nat) (l : List Nat) (w : WFl c l) :
    ∃ l', WFl (c.has k now).2 l' ∧ l'.length ≤ l.length := by
  rcases has_state_cases c k now with h | ⟨i, hg, h⟩
  · refine ⟨l, ?_, le_refl _⟩
    rw [h]
    exact w
  · obtain ⟨e, he, hek, hv, wdel⟩ := delete_WFl c k i l w hg
    refine ⟨l.erase i, ?_, List.length_erase_le _ _⟩
    rw [h]
    exact wdel

theorem get_of_has_false (c : LRUCache) (k now : Nat)
    (h : (c.has k now).1 = false) : c.get k now = (none, (c.has k now).2) := by
  unfold LRUCache.get
  dsimp only
  rw [if_pos h]

theorem get_of_has_true (c : LRUCache) (k now : Nat) (l : List Nat)
    (w : WFl c l) (h : (c.has k now).1 = true) :
    ∃ i e, mapGet c.keymap k = some i ∧ lookupStore c.store i = some e ∧
      e.key = k ∧ i ∈ l ∧
      c.get k now = (some e.value, markEntryAsUsed c i false now) := by
  have hst := has_true_state c k now h
  have hmh := has_true_mapHas c k now h
  obtain ⟨i, hg⟩ := (mapHas_eq_true_iff _ _).1 hmh
  obtain ⟨him, e, he, hek⟩ := w.kmSound k i hg
  refine ⟨i, e, hg, he, hek, him, ?_⟩
  obtain ⟨e2, he2, hk2, hv2⟩ := markUsed_kvPreserved c i false now i e he
  unfold LRUCache.get
  dsimp only
  rw [if_neg (by rw [h]; simp)]
  rw [hst]
  simp only [hg]
  simp only [he2]
  simp only [hv2]

theorem get_WF (c : LRUCache) (k now : Nat) (l : List Nat) (w : WFl c l) :
    ∃ l', WFl (c.get k now).2 l' ∧ l'.length ≤ l.length := by
  cases hb : (c.has k now).1 with
  | false =>
    rw [get_of_has_false c k now hb]
    exact has_WF c k now l w
  | true =>
    obtain ⟨i, e, hg, he, hek, him, hget⟩ := get_of_has_true c k now l w hb
    rw [hget]
    refine ⟨l.erase i ++ [i], markUsed_WFl c i false now l w him, ?_⟩
    have hpos := List.length_pos_of_mem him
    rw [List.length_append, List.length_erase_of_mem him]
    simp
    omega

theorem clear_WFl (c : LRUCache) (l : List Nat) (w : WFl c l) :
    WFl c.clear [] := by
  refine ⟨List.nodup_nil, rfl, rfl, rfl, rfl, List.nodup_nil, ?_, ?_, ?_⟩
  · intro k i h
    simp [mapGet] at h
  · intro i h
    simp at h
  · exact w.storeBound

theorem set_insert_eq (c : LRUCache) (k v now : Nat)
    (hh : mapHas c.keymap k = false) :
    c.set k v now =
      (if (setInsert c k v now).limit < (setInsert c k v now).size
        then (removeLRUItem (setInsert c k v now)).2
        else setInsert c k v now) := by
  unfold LRUCache.set
  rw [if_neg (by rw [hh]; simp)]

theorem set_update_eq (c : LRUCache) (k v now i : Nat) (e : Entry)
    (hg : mapGet c.keymap k = some i) (he : lookupStore c.store i = some e) :
    c.set k v now = markEntryAsUsed
      { c with store := updateStore c.store i (fun e0 => { e0 with value := v }) }
      i true now := by
  unfold LRUCache.set
  rw [if_pos ((mapHas_eq_true_iff _ _).2 ⟨i, hg⟩)]
  simp only [hg, he]

theorem set_WFl (c : LRUCache) (k v now : Nat) (l : List Nat) (w : WFl c l) :
    ∃ l', WFl (c.set k v now) l' ∧
      (mapHas c.keymap k = true → l'.length = l.length) ∧
      (mapHas c.keymap k = false → c.limit < l.length + 1 →
        l'.length = l.length) ∧
      (mapHas c.keymap k = false → l.length + 1 ≤ c.limit →
        l'.length = l.length + 1) := by
  by_cases hh : mapHas c.keymap k = true
  · obtain ⟨i, hg⟩ := (mapHas_eq_true_iff _ _).1 hh
    obtain ⟨him, e, he, hek⟩ := w.kmSound k i hg
    have w1 := WFl_update_entry c i (fun e0 => { e0 with value := v })
      (fun _ => rfl) (fun _ => rfl) (fun _ => rfl) l w
    have w2 := markUsed_WFl _ i true now l w1 him
    refine ⟨l.erase i ++ [i], ?_, ?_, ?_, ?_⟩
    · rw [set_update_eq c k v now i e hg he]
      exact w2
    · intro _
      have hpos := List.length_pos_of_mem him
      rw [List.length_append, List.length_erase_of_mem him]
      simp
      omega
    · intro hc
      simp [hh] at hc
    · intro hc
      simp [hh] at hc
  · rw [Bool.not_eq_true] at hh
    have hg : mapGet c.keymap k = none := (mapHas_eq_false_iff _ _).1 hh
    have w' := setInsert_WFl c k v now l w hg
    obtain ⟨hsz, hlim, _⟩ := setInsert_frame c k v now
    have hseteq := set_insert_eq c k v now hh
    by_cases hov : c.limit < l.length + 1
    · have hcond : (setInsert c k v now).limit < (setInsert c k v now).size := by
        rw [hsz, hlim, w.sizeEq]
        exact hov
      cases l with
      | nil =>
        obtain ⟨e, he, hr, wrest⟩ := removeLRU_WFl _ c.nextId [] w'
        refine ⟨[], ?_, ?_, ?_, ?_⟩
        · rw [hseteq, if_pos hcond]
          exact wrest
        · intro hc
          simp [hh] at hc
        · intro _ _
          rfl
        · intro _ hle
          exact absurd hle (by omega)
      | cons a t =>
        obtain ⟨e, he, hr, wrest⟩ := removeLRU_WFl _ a (t ++ [c.nextId]) w'
        refine ⟨t ++ [c.nextId], ?_, ?_, ?_, ?_⟩
        · rw [hseteq, if_pos hcond]
          exact wrest
        · intro hc
          simp [hh] at hc
        · intro _ _
          simp
        · intro _ hle
          exact absurd hle (by omega)
    · refine ⟨l ++ [c.nextId], ?_, ?_, ?_, ?_⟩
      · rw [hseteq, if_neg (by rw [hsz, hlim, w.sizeEq]; exact hov)]
        exact w'
      · intro hc
        simp [hh] at hc
      · intro _ hc
        exact absurd hc hov
      · intro _ _
        simp

theorem mapSet_fresh (m : Keymap) (k i : Nat) (h : mapGet m k = none) :
    mapSet m k i = m ++ [(k, i)] := by
  induction m with
  | nil => rfl
  | cons p rest ih =>
    obtain ⟨k', j⟩ := p
    by_cases hk : k' = k
    · subst hk
      simp [mapGet] at h
    · simp only [mapGet, if_neg hk] at h
      simp [mapSet, hk, ih h]

theorem zipKeys (done : List (Nat × Nat)) :
    ∀ ids : List Nat, done.length = ids.length →
      mapKeys (List.zipWith (fun kv i => (kv.1, i)) done ids)
        = done.map Prod.fst := by
  induction done with
  | nil => intro ids _; rfl
  | cons kv rest ih =>
    intro ids hlen
    cases ids with
    | nil => simp at hlen
    | cons i irest =>
      simp only [List.zipWith, mapKeys, List.map]
      simp only [List.length_cons, Nat.succ_inj] at hlen
      have := ih irest hlen
      simp only [mapKeys] at this
      rw [this]

theorem forall2_mem_imp {α β : Type} (R R' : α → β → Prop) :
    ∀ (xs : List α) (ys : List β), List.Forall₂ R xs ys →
      (∀ x ∈ xs, ∀ y ∈ ys, R x y → R' x y) → List.Forall₂ R' xs ys := by
  intro xs ys h
  induction h with
  | nil => intro _; exact List.Forall₂.nil
  | cons hR hrest ih =>
    intro hmem
    exact List.Forall₂.cons (hmem _ (by simp) _ (by simp) hR)
      (ih (fun x hx y hy hr => hmem x (by simp [hx]) y (by simp [hy]) hr))

theorem forall2_mem_right {α β : Type} (R : α → β → Prop) :
    ∀ (xs : List α) (ys : List β), List.Forall₂ R xs ys →
      ∀ y ∈ ys, ∃ x ∈ xs, R x y := by
  intro xs ys h
  induction h with
  | nil => intro y hy; simp at hy
  | cons hR hrest ih =>
    intro y hy
    rcases List.mem_cons.1 hy with h1 | h2
    · exact ⟨_, by simp, h1 ▸ hR⟩
    · obtain ⟨x, hx, hr⟩ := ih y h2
      exact ⟨x, by simp [hx], hr⟩

theorem forall2_mem_left {α β : Type} (R : α → β → Prop) :
    ∀ (xs : List α) (ys : List β), List.Forall₂ R xs ys →
      ∀ x ∈ xs, ∃ y ∈ ys, R x y := by
  intro xs ys h
  induction h with
  | nil => intro x hx; simp at hx
  | cons hR hrest ih =>
    intro x hx
    rcases List.mem_cons.1 hx with h1 | h2
    · exact ⟨_, by simp, h1 ▸ hR⟩
    · obtain ⟨y, hy, hr⟩ := ih x h2
      exact ⟨y, by simp [hy], hr⟩

theorem lastOr_none_getLast (l : List Nat) : lastOr l none = l.getLast? := by
  unfold lastOr
  cases h : l.getLast? <;> rfl

theorem head?_headOr (l : List Nat) : l.head? = headOr l none := by
  cases l <;> rfl

theorem zipWith_pair_append (f : (Nat × Nat) → Nat → (Nat × Nat)) :
    ∀ (done : List (Nat × Nat)) (ids : List Nat), done.length = ids.length →
      ∀ (kv : Nat × Nat) (i : Nat),
      List.zipWith f (done ++ [kv]) (ids ++ [i])
        = List.zipWith f done ids ++ [f kv i] := by
  intro done
  induction done with
  | nil =>
    intro ids hlen kv i
    cases ids with
    | nil => rfl
    | cons b bm => simp at hlen
  | cons d rest ih =>
    intro ids hlen kv i
    cases ids with
    | nil => simp at hlen
    | cons b bm =>
      simp only [List.length_cons] at hlen
      have hlen' : rest.length = bm.length := by omega
      simp [List.zipWith, ih bm hlen' kv i]

theorem assignStep_inv (c : LRUCache) (k v now : Nat)
    (done : List (Nat × Nat)) (ids : List Nat)
    (hkm : c.keymap = List.zipWith (fun kv i => (kv.1, i)) done ids)
    (hlen : done.length = ids.length)
    (hkfresh : mapGet c.keymap k = none)
    (hidslt : ∀ x ∈ ids, x < c.nextId)
    (hidsnd : ids.Nodup)
    (htail : c.tail = ids.head? ∨ ids = [])
    (hchain : seg c.store none ids none = true)
    (hkv : List.Forall₂ (entryMatches c.store) done ids)
    (hbound : ∀ p ∈ c.store, p.1 < c.nextId) :
    (assignStep c k v now (lastOr ids none)).keymap
        = List.zipWith (fun kv i => (kv.1, i)) (done ++ [(k, v)])
            (ids ++ [c.nextId]) ∧
    (done ++ [(k, v)]).length = (ids ++ [c.nextId]).length ∧
    (∀ x ∈ ids ++ [c.nextId],
      x < (assignStep c k v now (lastOr ids none)).nextId) ∧
    (ids ++ [c.nextId]).Nodup ∧
    ((assignStep c k v now (lastOr ids none)).tail
        = (ids ++ [c.nextId]).head? ∨ ids ++ [c.nextId] = []) ∧
    seg (assignStep c k v now (lastOr ids none)).store none
        (ids ++ [c.nextId]) none = true ∧
    List.Forall₂ (entryMatches (assignStep c k v now (lastOr ids none)).store)
        (done ++ [(k, v)]) (ids ++ [c.nextId]) ∧
    (∀ p ∈ (assignStep c k v now (lastOr ids none)).store,
      p.1 < (assignStep c k v now (lastOr ids none)).nextId) ∧
    (assignStep c k v now (lastOr ids none)).nextId = c.nextId + 1 ∧
    (assignStep c k v now (lastOr ids none)).limit = c.limit ∧
    (assignStep c k v now (lastOr ids none)).lifetime = c.lifetime ∧
    (assignStep c k v now (lastOr ids none)).size = c.size ∧
    (assignStep c k v now (lastOr ids none)).head = c.head := by
  have hfreshp : ∀ p ∈ c.store, p.1 ≠ c.nextId :=
    fun p hp => Nat.ne_of_lt (hbound p hp)
  have hboundapp : ∀ p ∈ c.store ++ [(c.nextId, (⟨k, v, now, none, none⟩ : Entry))],
      p.1 < c.nextId + 1 := by
    intro p hp
    rcases List.mem_append.1 hp with h1 | h2
    · exact Nat.lt_succ_of_lt (hbound p h1)
    · simp at h2
      subst h2
      exact Nat.lt_succ_self _
  rcases List.eq_nil_or_concat ids with rfl | ⟨m, la, hml⟩
  · -- first entry: becomes the tail
    have hdone : done = [] := List.eq_nil_of_length_eq_zero hlen
    subst hdone
    have hkm0 : c.keymap = [] := hkm
    have hstate : assignStep c k v now (lastOr [] none) =
        { c with
          store := c.store ++ [(c.nextId, ⟨k, v, now, none, none⟩)],
          nextId := c.nextId + 1,
          keymap := mapSet c.keymap k c.nextId,
          tail := some c.nextId } := by
      unfold assignStep allocEntry
      dsimp only
      rfl
    rw [hstate]
    have hlooknid : lookupStore
        (c.store ++ [(c.nextId, (⟨k, v, now, none, none⟩ : Entry))]) c.nextId
        = some ⟨k, v, now, none, none⟩ :=
      lookupStore_append_fresh _ _ _ hfreshp
    refine ⟨?_, by simp, ?_, by simp, Or.inl rfl, ?_, ?_, hboundapp, rfl, rfl,
      rfl, rfl, rfl⟩
    · show mapSet c.keymap k c.nextId = [(k, c.nextId)]
      rw [hkm0]
      rfl
    · intro x hx
      simp at hx
      rw [hx]
      exact Nat.lt_succ_self _
    · exact seg_cons_intro _ none none c.nextId [] ⟨k, v, now, none, none⟩
        hlooknid rfl rfl rfl
    · exact List.Forall₂.cons ⟨⟨k, v, now, none, none⟩, hlooknid, rfl, rfl⟩
        List.Forall₂.nil
  · simp only [List.concat_eq_append] at hml
    subst hml
    have hla : la < c.nextId := hidslt la (by simp)
    have hlane : la ≠ c.nextId := Nat.ne_of_lt hla
    have hlam : la ∉ m := by
      have h := hidsnd
      rw [List.nodup_append] at h
      exact fun hx => h.2.2 hx (by simp)
    obtain ⟨eLa, hlookla0⟩ := seg_mem_lookup c.store (m ++ [la]) none none la
      hchain (by simp)
    rw [lastOr_append_single]
    have hstate : assignStep c k v now (some la) =
        { c with
          store := updateStore (updateStore
              (c.store ++ [(c.nextId, ⟨k, v, now, none, none⟩)]) la
              (fun le => { le with previous := some c.nextId })) c.nextId
              (fun ee => { ee with next := some la }),
          nextId := c.nextId + 1,
          keymap := mapSet c.keymap k c.nextId } := by
      unfold assignStep allocEntry
      dsimp only
      try rfl
    rw [hstate]
    set S : Store Entry := updateStore (updateStore
        (c.store ++ [(c.nextId, ⟨k, v, now, none, none⟩)]) la
        (fun le => { le with previous := some c.nextId })) c.nextId
        (fun ee => { ee with next := some la }) with hS
    have hlookla : lookupStore S la
        = some { eLa with previous := some c.nextId } := by
      rw [hS, lookupStore_update_ne _ _ _ _ hlane, lookupStore_update_self,
          lookupStore_append_ne _ _ _ _ hlane, hlookla0]
      rfl
    have hlooknid : lookupStore S c.nextId
        = some ⟨k, v, now, none, some la⟩ := by
      rw [hS, lookupStore_update_self,
          lookupStore_update_ne _ _ _ _ (Ne.symm hlane),
          lookupStore_append_fresh _ _ _ hfreshp]
      rfl
    have hcongr : ∀ x ∈ m, lookupStore S x = lookupStore c.store x := by
      intro x hx
      have hxm : x ∈ m ++ [la] := List.mem_append_left _ hx
      have hxnid : x ≠ c.nextId := Nat.ne_of_lt (hidslt x hxm)
      have hxla : x ≠ la := fun hh => hlam (hh ▸ hx)
      rw [hS, lookupStore_update_ne _ _ _ _ hxnid,
          lookupStore_update_ne _ _ _ _ hxla,
          lookupStore_append_ne _ _ _ _ hxnid]
    have hSbound : ∀ p ∈ S, p.1 < c.nextId + 1 := by
      rw [hS]
      exact storeBound_update _ _ _ _ (storeBound_update _ _ _ _ hboundapp)
    refine ⟨?_, by simp [hlen], ?_, ?_, ?_, ?_, ?_, hSbound, rfl, rfl, rfl,
      rfl, rfl⟩
    · show mapSet c.keymap k c.nextId = _
      rw [hkm, mapSet_fresh _ _ _ (by rw [← hkm]; exact hkfresh)]
      rw [zipWith_pair_append _ done (m ++ [la]) hlen (k, v) c.nextId]
    · intro x hx
      rcases List.mem_append.1 hx with h1 | h2
      · exact Nat.lt_succ_of_lt (hidslt x h1)
      · simp at h2
        rw [h2]
        exact Nat.lt_succ_self _
    · refine List.Nodup.append hidsnd (List.nodup_singleton _) ?_
      intro x hx hy
      simp at hy
      subst hy
      exact absurd (hidslt _ hx) (lt_irrefl _)
    · left
      rcases htail with ht | ht
      · rw [ht]
        cases m <;> simp
      · simp at ht
    · rw [seg_append]
      simp only [Bool.and_eq_true]
      refine ⟨?_, ?_⟩
      · show seg S none (m ++ [la]) (some c.nextId) = true
        exact seg_update_last c.store S none none (some c.nextId) m la eLa
          { eLa with previous := some c.nextId } hchain hcongr hlookla0
          hlookla rfl rfl
      · rw [lastOr_append_single]
        exact seg_cons_intro S (some la) none c.nextId []
          ⟨k, v, now, none, some la⟩ hlooknid rfl rfl rfl
    · refine List.rel_append ?_
        (List.Forall₂.cons ⟨⟨k, v, now, none, some la⟩, hlooknid, rfl, rfl⟩
          List.Forall₂.nil)
      refine forall2_mem_imp _ _ done (m ++ [la]) hkv ?_
      intro kv _ y hy hm
      obtain ⟨e, he, hk, hv⟩ := hm
      by_cases hyla : y = la
      · subst hyla
        rw [hlookla0] at he
        injection he with hee
        subst hee
        exact ⟨{ eLa with previous := some c.nextId }, hlookla, hk, hv⟩
      · have hym : y ∈ m := by
          rcases List.mem_append.1 hy with h1 | h2
          · exact h1
          · simp at h2
            exact absurd h2 hyla
        refine ⟨e, ?_, hk, hv⟩
        rw [hcongr y hym]
        exact he

theorem assignLoop_inv (pairs : List (Nat × Nat)) :
    ∀ (c : LRUCache) (now : Nat) (done : List (Nat × Nat)) (ids : List Nat)
      (lim : Option Nat),
      ((done ++ pairs).map Prod.fst).Nodup →
      c.keymap = List.zipWith (fun kv i => (kv.1, i)) done ids →
      done.length = ids.length →
      (∀ x ∈ ids, x < c.nextId) →
      ids.Nodup →
      (c.tail = ids.head? ∨ ids = []) →
      seg c.store none ids none = true →
      List.Forall₂ (entryMatches c.store) done ids →
      (∀ p ∈ c.store, p.1 < c.nextId) →
      (∀ n, lim = some n → pairs.length ≤ n) →
      ∃ c1 L,
        assignLoop c pairs now (lastOr ids none) lim
          = .ok (c1, lastOr L none) ∧
        c1.keymap = List.zipWith (fun kv i => (kv.1, i)) (done ++ pairs) L ∧
        (done ++ pairs).length = L.length ∧
        (∀ x ∈ L, x < c1.nextId) ∧
        L.Nodup ∧
        (c1.tail = L.head? ∨ L = []) ∧
        seg c1.store none L none = true ∧
        List.Forall₂ (entryMatches c1.store) (done ++ pairs) L ∧
        (∀ p ∈ c1.store, p.1 < c1.nextId) ∧
        c1.limit = c.limit ∧ c1.lifetime = c.lifetime ∧ c1.size = c.size ∧
        c1.head = c.head ∧
        (∃ ids₂, L = ids ++ ids₂) := by
  induction pairs with
  | nil =>
    intro c now done ids lim hnd hkm hlen hidslt hidsnd htail hchain hkv
      hbound hfit
    exact ⟨c, ids, rfl, by simpa using hkm, by simpa using hlen, hidslt,
      hidsnd, htail, hchain, by simpa using hkv, hbound, rfl, rfl, rfl, rfl,
      ⟨[], by simp⟩⟩
  | cons kv rest ih =>
    intro c now done ids lim hnd hkm hlen hidslt hidsnd htail hchain hkv
      hbound hfit
    obtain ⟨k, v⟩ := kv
    have hkset : mapKeys c.keymap = done.map Prod.fst := by
      rw [hkm]
      exact zipKeys done ids hlen
    have hnd2 := hnd
    rw [List.map_append, List.nodup_append] at hnd2
    have hkfresh : mapGet c.keymap k = none := by
      rw [mapGet_eq_none_iff, hkset]
      intro hkin
      exact hnd2.2.2 hkin (by simp)
    obtain ⟨hkm', hlen', hidslt', hidsnd', htail', hchain', hkv', hbound',
      hnext', hlim', hlt', hsz', hhd'⟩ := assignStep_inv c k v now done ids
        hkm hlen hkfresh hidslt hidsnd htail hchain hkv hbound
    have hndstep : (((done ++ [(k, v)]) ++ rest).map Prod.fst).Nodup := by
      simpa using hnd
    have hassoc : (done ++ [(k, v)]) ++ rest = done ++ (k, v) :: rest := by
      simp
    have hlast : (some c.nextId : Option Nat)
        = lastOr (ids ++ [c.nextId]) none := (lastOr_append_single _ _ _).symm
    cases lim with
    | none =>
      obtain ⟨c1, L, hloop, hokm, hoklen, hoklt, hoknd, hoktail, hokchain,
        hokkv, hokbound, hoklim, hoklt2, hoksz, hokhd, ids₂, hids₂⟩ :=
        ih (assignStep c k v now (lastOr ids none)) now (done ++ [(k, v)])
          (ids ++ [c.nextId]) none hndstep hkm' hlen' hidslt' hidsnd'
          htail' hchain' hkv' hbound' (fun n hn => by cases hn)
      rw [← hlast] at hloop
      refine ⟨c1, L, hloop, ?_, ?_, hoklt, hoknd, hoktail, hokchain, ?_,
        hokbound, hoklim.trans hlim', hoklt2.trans hlt', hoksz.trans hsz',
        hokhd.trans hhd', ⟨[c.nextId] ++ ids₂, by rw [hids₂]; simp⟩⟩
      · rw [hokm, hassoc]
      · rw [← hassoc]
        exact hoklen
      · rw [← hassoc]
        exact hokkv
    | some n =>
      cases n with
      | zero =>
        exact absurd (hfit 0 rfl) (by simp)
      | succ n' =>
        obtain ⟨c1, L, hloop, hokm, hoklen, hoklt, hoknd, hoktail, hokchain,
          hokkv, hokbound, hoklim, hoklt2, hoksz, hokhd, ids₂, hids₂⟩ :=
          ih (assignStep c k v now (lastOr ids none)) now (done ++ [(k, v)])
            (ids ++ [c.nextId]) (some n') hndstep hkm' hlen' hidslt' hidsnd'
            htail' hchain' hkv' hbound'
            (fun n hn => by
              injection hn with hn'
              subst hn'
              have := hfit (n' + 1) rfl
              simp at this
              omega)
        rw [← hlast] at hloop
        refine ⟨c1, L, hloop, ?_, ?_, hoklt, hoknd, hoktail, hokchain, ?_,
          hokbound, hoklim.trans hlim', hoklt2.trans hlt', hoksz.trans hsz',
          hokhd.trans hhd', ⟨[c.nextId] ++ ids₂, by rw [hids₂]; simp⟩⟩
        · rw [hokm, hassoc]
        · rw [← hassoc]
          exact hoklen
        · rw [← hassoc]
          exact hokkv

theorem kmzip_sound (st : Store Entry) :
    ∀ (P : List (Nat × Nat)) (L : List Nat),
      List.Forall₂ (entryMatches st) P L →
      ∀ k i, mapGet (List.zipWith (fun kv i => (kv.1, i)) P L) k = some i →
        i ∈ L ∧ ∃ e, lookupStore st i = some e ∧ e.key = k := by
  intro P L h
  induction h with
  | nil =>
    intro k i hg
    simp [mapGet] at hg
  | @cons kv0 i0 P' L' hR hrest ih =>
    intro k i hg
    simp only [List.zipWith, mapGet] at hg
    by_cases hk : kv0.1 = k
    · rw [if_pos hk] at hg
      injection hg with hg'
      subst hg'
      obtain ⟨e, he, hek, hev⟩ := hR
      exact ⟨by simp, e, he, hek.trans hk⟩
    · rw [if_neg hk] at hg
      obtain ⟨hm, e, he, hek⟩ := ih k i hg
      exact ⟨by simp [hm], e, he, hek⟩

theorem kmzip_complete (st : Store Entry) :
    ∀ (P : List (Nat × Nat)) (L : List Nat),
      List.Forall₂ (entryMatches st) P L →
      (P.map Prod.fst).Nodup →
      ∀ i ∈ L, ∃ e, lookupStore st i = some e ∧
        mapGet (List.zipWith (fun kv i => (kv.1, i)) P L) e.key = some i := by
  intro P L h
  induction h with
  | nil =>
    intro _ i hi
    simp at hi
  | @cons kv0 i0 P' L' hR hrest ih =>
    intro hnd i hi
    simp only [List.map, List.nodup_cons] at hnd
    obtain ⟨hk0, hnd'⟩ := hnd
    rcases List.mem_cons.1 hi with h1 | h2
    · subst h1
      obtain ⟨e, he, hek, hev⟩ := hR
      refine ⟨e, he, ?_⟩
      simp only [List.zipWith, mapGet]
      rw [hek, if_pos rfl]
    · obtain ⟨e, he, hg⟩ := ih hnd' i h2
      refine ⟨e, he, ?_⟩
      simp only [List.zipWith, mapGet]
      rw [if_neg ?_]
      · exact hg
      · intro hx
        apply hk0
        have hmem := mapGet_mem _ _ _ hg
        have hkm : e.key
            ∈ mapKeys (List.zipWith (fun kv i => (kv.1, i)) P' L') :=
          List.mem_map_of_mem Prod.fst hmem
        rw [zipKeys P' L' hrest.length_eq] at hkm
        rw [hx]
        exact hkm

theorem assign_ok (c : LRUCache) (pairs : List (Nat × Nat)) (now : Nat)
    (hnd : (pairs.map Prod.fst).Nodup)
    (hbound : ∀ p ∈ c.store, p.1 < c.nextId)
    (hfit : c.limit = 0 ∨ pairs.length ≤ c.limit)
    (htail : pairs ≠ [] ∨ c.tail = none) :
    ∃ d L, c.assign pairs now = .ok d ∧ WFl d L ∧
      List.Forall₂ (entryMatches d.store) pairs L ∧
      d.limit = c.limit ∧ d.lifetime = c.lifetime := by
  have hfit' : ∀ n,
      (if c.limit = 0 then (none : Option Nat) else some c.limit) = some n →
      pairs.length ≤ n := by
    intro n hn
    by_cases h0 : c.limit = 0
    · rw [if_pos h0] at hn
      cases hn
    · rw [if_neg h0] at hn
      injection hn with hn'
      subst hn'
      rcases hfit with h | h
      · exact absurd h h0
      · exact h
  obtain ⟨c1, L, hloop, hokm, hoklen, hoklt, hoknd, hoktail, hokchain, hokkv,
    hokbound, hoklim, hoklt2, hoksz, hokhd, ids₂, hids₂⟩ :=
    assignLoop_inv pairs { c with keymap := [] } now [] []
      (if c.limit = 0 then none else some c.limit)
      (by simpa using hnd) rfl rfl (by simp) List.nodup_nil (Or.inr rfl) rfl
      List.Forall₂.nil hbound hfit'
  have hkv2 : List.Forall₂ (entryMatches c1.store) pairs L := by
    simpa using hokkv
  have hlen2 : pairs.length = L.length := by
    simpa using hoklen
  have hkm2 : c1.keymap = List.zipWith (fun kv i => (kv.1, i)) pairs L := by
    simpa using hokm
  set d : LRUCache := { c1 with head := lastOr L none, size := mapSize c1.keymap } with hdd
  have hloop2 : assignLoop { c with keymap := [] } pairs now none
      (if c.limit = 0 then none else some c.limit)
      = .ok (c1, lastOr L none) := hloop
  have hassign : c.assign pairs now = .ok d := by
    unfold LRUCache.assign
    dsimp only
    rw [hloop2, hdd]
  refine ⟨d, L, hassign, ?_, hkv2, hoklim, hoklt2⟩
  have htl : d.tail = L.head? := by
    rcases hoktail with ht | ht
    · exact ht
    · subst ht
      have hp : pairs = [] := List.eq_nil_of_length_eq_zero hlen2
      subst hp
      have hc1 : c1 = { c with keymap := [] } := by
        have hh := hloop2
        unfold assignLoop at hh
        injection hh with h2
        injection h2 with h3 h4
        exact h3.symm
      rcases htail with hne | hct
      · exact absurd rfl hne
      · show c1.tail = ([] : List Nat).head?
        rw [hc1]
        exact hct
  refine ⟨hoknd, htl, ?_, hokchain, ?_, ?_, ?_, ?_, hokbound⟩
  · show lastOr L none = L.getLast?
    exact lastOr_none_getLast L
  · show mapSize c1.keymap = L.length
    unfold mapSize
    rw [hkm2, List.length_zipWith, hlen2]
    exact Nat.min_self _
  · show (mapKeys c1.keymap).Nodup
    rw [hkm2, zipKeys pairs L hlen2]
    exact hnd
  · intro k i h
    have h2 : mapGet c1.keymap k = some i := h
    rw [hkm2] at h2
    exact kmzip_sound c1.store pairs L hkv2 k i h2
  · intro i hi
    obtain ⟨e, he, hg⟩ := kmzip_complete c1.store pairs L hkv2 hnd i hi
    refine ⟨e, he, ?_⟩
    show mapGet c1.keymap e.key = some i
    rw [hkm2]
    exact hg

theorem chainIdsAux_seg (s : Store Entry) :
    ∀ (l : List Nat) (o : Option Nat) (fuel : Nat),
      seg s o l none = true → l.length ≤ fuel →
      chainIdsAux s fuel (headOr l none) = l := by
  intro l
  induction l with
  | nil =>
    intro o fuel _ _
    cases fuel <;> rfl
  | cons i rest ih =>
    intro o fuel hseg hfuel
    obtain ⟨e, he, hnext, hprev, hrest⟩ := seg_cons_elim s o none i rest hseg
    cases fuel with
    | zero => simp at hfuel
    | succ fuel' =>
      show chainIdsAux s (fuel' + 1) (some i) = i :: rest
      unfold chainIdsAux
      simp only [he]
      rw [hprev]
      rw [ih (some i) fuel' hrest (by simpa using hfuel)]

theorem toJSONAux_seg (s : Store Entry) :
    ∀ (l : List Nat) (kvs : List (Nat × Nat)) (o : Option Nat) (fuel : Nat),
      seg s o l none = true →
      List.Forall₂ (entryMatches s) kvs l →
      l.length ≤ fuel →
      toJSONAux s fuel (headOr l none) = kvs := by
  intro l
  induction l with
  | nil =>
    intro kvs o fuel _ hf _
    cases hf
    cases fuel <;> rfl
  | cons i rest ih =>
    intro kvs o fuel hseg hf hfuel
    obtain ⟨e, he, hnext, hprev, hrest⟩ := seg_cons_elim s o none i rest hseg
    cases hf with
    | cons hR hF =>
      rename_i kv kvs'
      cases fuel with
      | zero => simp at hfuel
      | succ fuel' =>
        show toJSONAux s (fuel' + 1) (some i) = kv :: kvs'
        unfold toJSONAux
        simp only [he]
        rw [hprev]
        rw [ih kvs' (some i) fuel' hrest hF (by simpa using hfuel)]
        obtain ⟨e', he', hk, hv⟩ := hR
        rw [he] at he'
        injection he' with hee
        subst hee
        rw [hk, hv]

theorem WFl_length_le_store (c : LRUCache) (l : List Nat) (w : WFl c l) :
    l.length ≤ c.store.length := by
  have hsub : l ⊆ c.store.map Prod.fst := by
    intro i hi
    obtain ⟨e, he, _⟩ := w.kmComplete i hi
    exact lookup_mem_ids c.store i e he
  have := (w.idsNodup.subperm hsub).length_le
  simpa using this

theorem chainIds_eq (c : LRUCache) (l : List Nat) (w : WFl c l) :
    c.chainIds = l := by
  unfold LRUCache.chainIds
  rw [w.tailEq, head?_headOr]
  exact chainIdsAux_seg c.store l none c.store.length w.chain
    (WFl_length_le_store c l w)

theorem toJSON_eq (c : LRUCache) (l : List Nat) (kvs : List (Nat × Nat))
    (w : WFl c l) (hf : List.Forall₂ (entryMatches c.store) kvs l) :
    c.toJSON = kvs := by
  unfold LRUCache.toJSON
  rw [w.tailEq, head?_headOr]
  exact toJSONAux_seg c.store l kvs none c.store.length w.chain hf
    (WFl_length_le_store c l w)

theorem WFl_kvs_exists (c : LRUCache) (l : List Nat) (w : WFl c l) :
    ∀ m : List Nat, (∀ i ∈ m, i ∈ l) →
      ∃ kvs : List (Nat × Nat),
        List.Forall₂ (fun kv i => entryMatches c.store kv i ∧
          mapGet c.keymap kv.1 = some i) kvs m := by
  intro m
  induction m with
  | nil => intro _; exact ⟨[], List.Forall₂.nil⟩
  | cons i rest ih =>
    intro hmem
    obtain ⟨kvs', hf⟩ := ih (fun j hj => hmem j (by simp [hj]))
    obtain ⟨e, he, hg⟩ := w.kmComplete i (hmem i (by simp))
    exact ⟨(e.key, e.value) :: kvs',
      List.Forall₂.cons ⟨⟨e, he, rfl, rfl⟩, hg⟩ hf⟩

theorem set_limit (c : LRUCache) (k v now : Nat) :
    (c.set k v now).limit = c.limit := by
  by_cases hh : mapHas c.keymap k = true
  · unfold LRUCache.set
    rw [if_pos hh]
    cases hg : mapGet c.keymap k with
    | none => simp only [hg]
    | some i =>
      simp only [hg]
      cases hl : lookupStore c.store i with
      | none => simp only [hl]
      | some e =>
        simp only [hl]
        exact (markUsed_frame _ i true now).2.1
  · rw [Bool.not_eq_true] at hh
    rw [set_insert_eq c k v now hh]
    split
    · exact (removeLRU_frame _).1.trans (setInsert_frame c k v now).2.1
    · exact (setInsert_frame c k v now).2.1

theorem has_limit (c : LRUCache) (k now : Nat) :
    (c.has k now).2.limit = c.limit := by
  rcases has_state_cases c k now with h | ⟨i, hg, h⟩
  · rw [h]
  · rw [h]
    exact (delete_frame c k).1

theorem get_limit (c : LRUCache) (k now : Nat) :
    (c.get k now).2.limit = c.limit := by
  cases hb : (c.has k now).1 with
  | false =>
    rw [get_of_has_false c k now hb]
    exact has_limit c k now
  | true =>
    have hst := has_true_state c k now hb
    unfold LRUCache.get
    dsimp only
    rw [if_neg (by rw [hb]; simp), hst]
    cases hg : mapGet c.keymap k with
    | none => simp only [hg]
    | some i =>
      simp only [hg]
      cases hl : lookupStore (markEntryAsUsed c i false now).store i with
      | none =>
        simp only [hl]
        exact (markUsed_frame c i false now).2.1
      | some e =>
        simp only [hl]
        exact (markUsed_frame c i false now).2.1

theorem reachableWF_inv (c : LRUCache) (hr : ReachableWF c) :
    ∃ l, WFl c l ∧ (1 ≤ c.limit → l.length ≤ c.limit) := by
  induction hr with
  | init lt lim =>
    refine ⟨[], ?_, fun _ => by simp⟩
    exact ⟨List.nodup_nil, rfl, rfl, rfl, rfl, List.nodup_nil,
      fun k i h => by simp [mapGet] at h,
      fun i h => by simp at h,
      fun p hp => by simp [mkCache] at hp⟩
  | stepSet c0 k v now hr0 ih =>
    obtain ⟨l, w, hsz⟩ := ih
    obtain ⟨l', w', himp1, himp2, himp3⟩ := set_WFl c0 k v now l w
    refine ⟨l', w', fun hpos => ?_⟩
    rw [set_limit c0 k v now] at hpos ⊢
    by_cases hh : mapHas c0.keymap k = true
    · rw [himp1 hh]
      exact hsz hpos
    · rw [Bool.not_eq_true] at hh
      by_cases hov : c0.limit < l.length + 1
      · rw [himp2 hh hov]
        exact hsz hpos
      · rw [himp3 hh (by omega)]
        omega
  | stepGet c0 k now hr0 ih =>
    obtain ⟨l, w, hsz⟩ := ih
    obtain ⟨l', w', hle⟩ := get_WF c0 k now l w
    refine ⟨l', w', fun hpos => ?_⟩
    rw [get_limit c0 k now] at hpos ⊢
    exact le_trans hle (hsz hpos)
  | stepHas c0 k now hr0 ih =>
    obtain ⟨l, w, hsz⟩ := ih
    obtain ⟨l', w', hle⟩ := has_WF c0 k now l w
    refine ⟨l', w', fun hpos => ?_⟩
    rw [has_limit c0 k now] at hpos ⊢
    exact le_trans hle (hsz hpos)
  | stepDelete c0 k hr0 ih =>
    obtain ⟨l, w, hsz⟩ := ih
    cases hg : mapGet c0.keymap k with
    | none =>
      rw [delete_absent c0 k hg]
      exact ⟨l, w, hsz⟩
    | some i =>
      obtain ⟨e, he, hek, hv, wdel⟩ := delete_WFl c0 k i l w hg
      refine ⟨l.erase i, wdel, fun hpos => ?_⟩
      rw [(delete_frame c0 k).1] at hpos ⊢
      exact le_trans (List.length_erase_le _ _) (hsz hpos)
  | stepRemoveLRU c0 hr0 ih =>
    obtain ⟨l, w, hsz⟩ := ih
    cases l with
    | nil =>
      rw [removeLRU_empty c0 w]
      exact ⟨[], w, hsz⟩
    | cons i0 rest =>
      obtain ⟨e, he, hr1, wrest⟩ := removeLRU_WFl c0 i0 rest w
      refine ⟨rest, wrest, fun hpos => ?_⟩
      rw [(removeLRU_frame c0).1] at hpos ⊢
      have := hsz hpos
      simp at this
      omega
  | stepClear c0 hr0 ih =>
    obtain ⟨l, w, hsz⟩ := ih
    exact ⟨[], clear_WFl c0 l w, fun _ => by simp⟩
  | stepAssign c0 c' pairs now hr0 hne hndk hfitg hok ih =>
    obtain ⟨l, w, hsz⟩ := ih
    obtain ⟨d, L, hassign, wd, hkv, hlim, hlt⟩ := assign_ok c0 pairs now hndk
      w.storeBound hfitg (Or.inl hne)
    rw [hok] at hassign
    injection hassign with hdc
    subst hdc
    refine ⟨L, wd, fun hpos => ?_⟩
    have hlen := hkv.length_eq
    rw [hlim] at hpos ⊢
    rcases hfitg with h0 | hle
    · omega
    · rw [← hlen]
      exact hle

theorem filterMap_of_forall2 {α β γ : Type} (f : β → Option γ) (g : α → γ) :
    ∀ (xs : List α) (ys : List β),
      List.Forall₂ (fun a b => f b = some (g a)) xs ys →
      ys.filterMap f = xs.map g := by
  intro xs ys h
  induction h with
  | nil => rfl
  | @cons a b xs' ys' hR hrest ih =>
    simp [List.filterMap_cons, hR, ih]

theorem keys_nodup_of_forall2 (km : Keymap) :
    ∀ (kvs : List (Nat × Nat)) (l : List Nat),
      List.Forall₂ (fun kv i => mapGet km kv.1 = some i) kvs l →
      l.Nodup → (kvs.map Prod.fst).Nodup := by
  intro kvs l h
  induction h with
  | nil => intro _; exact List.nodup_nil
  | @cons kv i kvs' l' hR hrest ih =>
    intro hnd
    rw [List.nodup_cons] at hnd
    obtain ⟨hil, hnd'⟩ := hnd
    simp only [List.map, List.nodup_cons]
    refine ⟨?_, ih hnd'⟩
    intro hkin
    obtain ⟨kv', hkv', hfst⟩ := List.mem_map.1 hkin
    obtain ⟨i', hi', hR'⟩ := forall2_mem_left _ kvs' l' hrest kv' hkv'
    rw [hfst] at hR'
    rw [hR] at hR'
    injection hR' with hii
    exact hil (by rw [hii]; exact hi')

theorem chainKeys_perm (c : LRUCache) (l : List Nat) (w : WFl c l) :
    c.chainKeys.Perm (mapKeys c.keymap) := by
  obtain ⟨kvs, hf⟩ := WFl_kvs_exists c l w l (fun i hi => hi)
  have hf1 : List.Forall₂
      (fun kv i => (lookupStore c.store i).map Entry.key = some kv.1) kvs l :=
    forall2_mem_imp _ _ kvs l hf (fun kv _ i _ h => by
      obtain ⟨⟨e, he, hk, hv⟩, hg⟩ := h
      rw [he]
      simp [hk])
  have hchainkeys : c.chainKeys = kvs.map Prod.fst := by
    unfold LRUCache.chainKeys
    rw [chainIds_eq c l w]
    exact filterMap_of_forall2 _ _ kvs l hf1
  have hf2 : List.Forall₂ (fun kv i => mapGet c.keymap kv.1 = some i) kvs l :=
    forall2_mem_imp _ _ kvs l hf (fun kv _ i _ h => h.2)
  have hknodup : (kvs.map Prod.fst).Nodup :=
    keys_nodup_of_forall2 c.keymap kvs l hf2 w.idsNodup
  rw [hchainkeys, List.perm_ext_iff_of_nodup hknodup w.kmKeysNodup]
  intro k
  constructor
  · intro hk
    obtain ⟨kv, hkv, rfl⟩ := List.mem_map.1 hk
    obtain ⟨i, hi, hg⟩ := forall2_mem_left _ kvs l hf2 kv hkv
    have hmem := mapGet_mem c.keymap kv.1 i hg
    have himg : Prod.fst (kv.1, i) ∈ mapKeys c.keymap :=
      List.mem_map_of_mem Prod.fst hmem
    exact himg
  · intro hk
    cases hg : mapGet c.keymap k with
    | none =>
      rw [mapGet_eq_none_iff] at hg
      exact absurd hk hg
    | some i =>
      obtain ⟨hil, e, he, hek⟩ := w.kmSound k i hg
      obtain ⟨kv, hkv, hR⟩ := forall2_mem_right _ kvs l hf i hil
      obtain ⟨⟨e', he', hk', hv'⟩, hg'⟩ := hR
      rw [he] at he'
      injection he' with hee
      subst hee
      have : kv.1 = k := hk'.symm.trans hek
      rw [← this]
      exact List.mem_map_of_mem Prod.fst hkv
